import Mathlib

/-!
# Verification of the klaus-oci resolution & retrieval core

A shallow embedding, in Lean 4, of the parts of the `oci` Go package that the
specification's claims concern:

* the semver selector (`sortedSemverTags` in `listing.go`, `LatestSemverTag`
  in `helpers.go`),
* the reference resolver (`resolveArtifactRef`, `resolvePluginRefs` in
  `resolve.go` and the string helpers of `helpers.go`),
* the digest cache (`IsCached`, `ReadCacheEntry`, `WriteCacheEntry` in
  `cache.go`),
* the secure archive codec (`extractTarGz`, `cleanAndCreate`),
* the pull operation (`pull` in `pull.go`),
* the concurrent dependency resolver (`ResolvePersonalityDeps`).

Go slices become Lean lists, Go strings become Lean `String`s manipulated
through their underlying `List Char`, errors become `Except String`, the file
system becomes an explicit association list from path strings to nodes, and
network calls become oracle functions passed as parameters.  Concurrency in
the dependency resolver is modelled by an arbitrary interleaving: the
mutex-serialised task completions are folded over an arbitrary permutation of
the declared tasks.
-/

namespace KlausOci

/-! ## Semantic versions

The Go code delegates semver parsing and comparison to the Masterminds
`semver/v3` library, which is an external dependency whose source is not part
of this repository.  Modelled from the spec: a semantic version is
`MAJOR.MINOR.PATCH[-PRERELEASE][+BUILD]`, optionally prefixed with a single
leading "v"; precedence compares major/minor/patch numerically, a pre-release
version sorts below its corresponding release, pre-release identifier lists
compare left to right (numeric identifiers numerically, numeric below
alphanumeric, alphanumeric in ASCII order, a shorter list that is a prefix of
a longer one sorting first), and build metadata is ignored.
-/

/-- A pre-release identifier: either numeric or alphanumeric. -/
inductive PreId where
  | num (n : Nat)
  | alnum (s : List Char)
deriving DecidableEq

/-- A parsed semantic version.  Build metadata is dropped at parse time since
it never participates in precedence. -/
structure SemVer where
  major : Nat
  minor : Nat
  patch : Nat
  pre : List PreId
deriving DecidableEq

/-- Key of a pre-release identifier in a lexicographically ordered type:
numeric identifiers sort below alphanumeric ones. -/
def PreId.key : PreId → Nat ⊕ₗ List Char
  | .num n => toLex (Sum.inl n)
  | .alnum s => toLex (Sum.inr s)

/-- Key of the pre-release component: the empty pre-release (a release
version) sorts above every pre-release list. -/
def preKey : List PreId → WithTop (List (Nat ⊕ₗ List Char))
  | [] => ⊤
  | ids => ((ids.map PreId.key : List (Nat ⊕ₗ List Char)) : WithTop (List (Nat ⊕ₗ List Char)))

/-- The linearly ordered key a semantic version compares by. -/
abbrev SemKey := Nat ×ₗ (Nat ×ₗ (Nat ×ₗ WithTop (List (Nat ⊕ₗ List Char))))

/-- Precedence key of a semantic version. -/
def semverKey (v : SemVer) : SemKey :=
  toLex (v.major, toLex (v.minor, toLex (v.patch, preKey v.pre)))

/-- Semantic-version precedence, as an `Ordering` (models `Version.Compare`). -/
def compareSemver (a b : SemVer) : Ordering :=
  compare (semverKey a) (semverKey b)

/-- Split a character list at every occurrence of `sep`; the result is always
nonempty and concatenating it with `sep` in between restores the input. -/
def splitOnCh (sep : Char) : List Char → List (List Char)
  | [] => [[]]
  | c :: cs =>
    if c = sep then [] :: splitOnCh sep cs
    else
      match splitOnCh sep cs with
      | [] => [[c]]
      | p :: ps => (c :: p) :: ps

/-- Split a character list at the first occurrence of `sep`, if any. -/
def breakAtCh (sep : Char) : List Char → List Char × Option (List Char)
  | [] => ([], none)
  | c :: cs =>
    if c = sep then ([], some cs)
    else
      let r := breakAtCh sep cs
      (c :: r.1, r.2)

/-- Decimal digit test. -/
def isDigitCh (c : Char) : Bool := '0' ≤ c ∧ c ≤ '9'

/-- Characters allowed in pre-release/build identifiers. -/
def isIdentCh (c : Char) : Bool :=
  isDigitCh c ∨ ('a' ≤ c ∧ c ≤ 'z') ∨ ('A' ≤ c ∧ c ≤ 'Z') ∨ c = '-'

/-- A nonempty all-digit character list. -/
def allDigits (l : List Char) : Bool := !l.isEmpty ∧ l.all isDigitCh

/-- Decimal value of a digit list. -/
def digitsToNat (l : List Char) : Nat :=
  l.foldl (fun acc c => acc * 10 + (c.toNat - '0'.toNat)) 0

/-- A nonempty identifier of digits, ASCII letters and hyphens. -/
def identOk (l : List Char) : Bool := !l.isEmpty ∧ l.all isIdentCh

/-- Parse one pre-release identifier. -/
def parsePreId (l : List Char) : Option PreId :=
  if identOk l then some (if allDigits l then .num (digitsToNat l) else .alnum l)
  else none

/-- Parse a dot-separated pre-release identifier list. -/
def parsePre (l : List Char) : Option (List PreId) :=
  (splitOnCh '.' l).mapM parsePreId

/-- Validate dot-separated build metadata (which is then discarded). -/
def buildOk : Option (List Char) → Bool
  | none => true
  | some b => (splitOnCh '.' b).all identOk

/-- Parse a tag as a semantic version.  Modelled from the spec:
`MAJOR.MINOR.PATCH[-PRERELEASE][+BUILD]` with an optional single leading
"v"; embeds the Masterminds `semver.NewVersion` call used by the source. -/
def parseSemver (s : String) : Option SemVer :=
  let cs := match s.data with
    | 'v' :: rest => rest
    | other => other
  let coreBuild := breakAtCh '+' cs
  if buildOk coreBuild.2 then
    let verPre := breakAtCh '-' coreBuild.1
    match splitOnCh '.' verPre.1 with
    | [ma, mi, pa] =>
      if allDigits ma ∧ allDigits mi ∧ allDigits pa then
        match verPre.2 with
        | none => some ⟨digitsToNat ma, digitsToNat mi, digitsToNat pa, []⟩
        | some p =>
          match parsePre p with
          | some ids => some ⟨digitsToNat ma, digitsToNat mi, digitsToNat pa, ids⟩
          | none => none
      else none
    | _ => none
  else none

/-! ## The semver selector

`sortedSemverTags` (listing.go) filters the tags to valid semver and sorts
them descending by precedence; `LatestSemverTag` (helpers.go) scans the tags
keeping the first tag of highest precedence.  The Go sort `slices.SortFunc`
with comparator `b.ver.Compare(a.ver)` is embedded as a stable insertion sort
descending by precedence, elements of equal precedence keeping input order. -/

/-- Insert a tagged version into a list sorted descending by precedence,
after every strictly greater element and before every other. -/
def insertDesc (x : String × SemVer) : List (String × SemVer) → List (String × SemVer)
  | [] => [x]
  | y :: ys =>
    if compareSemver y.2 x.2 = .gt then y :: insertDesc x ys
    else x :: y :: ys

/-- Stable sort, descending by semantic-version precedence. -/
def sortPairsDesc : List (String × SemVer) → List (String × SemVer)
  | [] => []
  | x :: xs => insertDesc x (sortPairsDesc xs)

/-- The `versions` list of `sortedSemverTags`: each tag paired with its
parsed version, unparseable tags skipped. -/
def pairsOf (tags : List String) : List (String × SemVer) :=
  tags.filterMap fun t => (parseSemver t).map fun v => (t, v)

/-- `sortedSemverTags` from listing.go: filter the tags to those parseable as
semver and sort them descending by precedence. -/
def sortedSemverTags (tags : List String) : List String :=
  (sortPairsDesc (pairsOf tags)).map Prod.fst

/-- The first pair of maximal precedence (ties keep the earlier pair). -/
def firstMaxPair : List (String × SemVer) → Option (String × SemVer)
  | [] => none
  | x :: xs =>
    match firstMaxPair xs with
    | none => some x
    | some m => if compareSemver m.2 x.2 = .gt then some m else some x

/-- Tag/version pairs sorted descending by precedence. -/
def SortedDescPairs (l : List (String × SemVer)) : Prop :=
  l.Pairwise fun a b => semverKey b.2 ≤ semverKey a.2

/-- Both strings parse as semver and the two versions have equal
precedence. -/
def sameVerB (k s : String) : Bool :=
  match parseSemver k, parseSemver s with
  | some vk, some vs => compareSemver vs vk = .eq
  | _, _ => false

/-- Both strings parse as semver and the first has precedence at least the
second's. -/
def semverGEStr (a b : String) : Prop :=
  ∃ va vb, parseSemver a = some va ∧ parseSemver b = some vb ∧
    semverKey vb ≤ semverKey va

/-- Loop body of `LatestSemverTag`: keep the first tag whose version is
strictly greater (`v.GreaterThan(best)`) than the best so far. -/
def latestStep (acc : Option SemVer × String) (t : String) : Option SemVer × String :=
  match parseSemver t with
  | none => acc
  | some v =>
    match acc.1 with
    | none => (some v, t)
    | some b => if compareSemver v b = .gt then (some v, t) else acc

/-- `LatestSemverTag` from helpers.go: one pass over the tags keeping the
first tag of highest precedence. -/
def LatestSemverTag (tags : List String) : String :=
  (tags.foldl latestStep (none, "")).2

/-! ## Reference-string helpers (helpers.go)

Go strings are embedded through their character lists; `strings.LastIndex`
and `strings.Index` return byte indices in Go and character indices here,
which agree in every comparison and slice the source performs because the
searched-for separators are single ASCII characters. -/

/-- Index of the last occurrence of `c` in `s`, or `-1` (`strings.LastIndex`). -/
def lastIndexCh (s : String) (c : Char) : Int :=
  (s.data.foldl (fun (acc : Int × Int) x => (acc.1 + 1, if x = c then acc.1 else acc.2))
    (0, -1)).2

/-- Index of the first occurrence of `c` in `s`, or `-1` (`strings.Index`). -/
def firstIndexCh (s : String) (c : Char) : Int :=
  (s.data.foldl
    (fun (acc : Int × Int) x => (acc.1 + 1, if acc.2 = -1 ∧ x = c then acc.1 else acc.2))
    (0, -1)).2

/-- `s[:n]` for a character index. -/
def takeStr (s : String) (n : Int) : String := ⟨s.data.take n.toNat⟩

/-- `s[n:]` for a character index. -/
def dropStr (s : String) (n : Int) : String := ⟨s.data.drop n.toNat⟩

/-- `strings.Contains(s, c)` for a single-character needle. -/
def containsCh (s : String) (c : Char) : Bool := s.data.contains c

/-- Go `unicode.IsSpace` restricted to the ASCII space characters that can
realistically surround an artifact reference. -/
def isSpaceCh (c : Char) : Bool :=
  c = ' ' ∨ c = '\t' ∨ c = '\n' ∨ c = '\x0b' ∨ c = '\x0c' ∨ c = '\r'

/-- `strings.TrimSpace`. -/
def goTrimSpace (s : String) : String :=
  ⟨((s.data.dropWhile isSpaceCh).reverse.dropWhile isSpaceCh).reverse⟩

/-- `hasDigest` from helpers.go: the reference contains an `@`. -/
def hasDigest (ref : String) : Bool := containsCh ref '@'

/-- `hasTagOrDigest` from helpers.go: a digest, or a colon after the last
path separator (a colon inside a host:port segment does not count). -/
def hasTagOrDigest (ref : String) : Bool :=
  hasDigest ref || decide (lastIndexCh ref ':' > lastIndexCh ref '/')

/-- `extractTag` from helpers.go: the tag after the last tag-position colon,
empty for digest references and references without a tag. -/
def extractTag (ref : String) : String :=
  if hasDigest ref then ""
  else
    let nameStart := lastIndexCh ref '/'
    let tagIdx := lastIndexCh ref ':'
    if tagIdx > nameStart then dropStr ref (tagIdx + 1) else ""

/-- `SplitNameTag` from helpers.go. -/
def SplitNameTag (ref : String) : String × String :=
  let nameStart := lastIndexCh ref '/'
  let idx := lastIndexCh ref ':'
  if idx > nameStart then (takeStr ref idx, dropStr ref (idx + 1)) else (ref, "")

/-- `RepositoryFromRef` from helpers.go. -/
def RepositoryFromRef (ref : String) : String :=
  let atIdx := firstIndexCh ref '@'
  if atIdx > 0 then takeStr ref atIdx
  else
    let nameStart := lastIndexCh ref '/'
    let idx := lastIndexCh ref ':'
    if idx > nameStart ∧ nameStart ≥ 0 then takeStr ref idx else ref

/-! ## The reference resolver (resolve.go)

The transport collaborator's tag listing is an oracle
`lister : String → Except String (List String)` standing for
`tagLister.List`. -/

/-- `resolveLatestTagForRepo` from resolve.go. -/
def resolveLatestTagForRepo (lister : String → Except String (List String))
    (repo : String) : Except String String :=
  match lister repo with
  | .error e => .error ("listing tags for " ++ repo ++ ": " ++ e)
  | .ok tags =>
    let latest := LatestSemverTag tags
    if latest = "" then .error ("no semver tags found for " ++ repo)
    else .ok latest

/-- `resolveLatestSemver` from resolve.go. -/
def resolveLatestSemver (lister : String → Except String (List String))
    (repo : String) : Except String String :=
  match resolveLatestTagForRepo lister repo with
  | .error e => .error e
  | .ok tag => .ok (repo ++ ":" ++ tag)

/-- `resolveArtifactRef` from resolve.go. -/
def resolveArtifactRef (lister : String → Except String (List String))
    (ref registryBase : String) : Except String String :=
  let ref := goTrimSpace ref
  if ref = "" then .error "empty artifact reference"
  else if containsCh ref '/' then
    if !hasTagOrDigest ref then resolveLatestSemver lister ref
    else if hasDigest ref then .ok ref
    else if extractTag ref ≠ "latest" then .ok ref
    else resolveLatestSemver lister (RepositoryFromRef ref)
  else
    let nt := SplitNameTag ref
    let fullRepo := registryBase ++ "/" ++ nt.1
    if nt.2 ≠ "" ∧ nt.2 ≠ "latest" then .ok (fullRepo ++ ":" ++ nt.2)
    else resolveLatestSemver lister fullRepo

/-- `PluginReference` from types.go. -/
structure PluginReference where
  Repository : String
  Tag : String
  Digest : String
deriving DecidableEq

/-- `PluginReference.Ref`: digest wins over tag, bare repository otherwise. -/
def PluginReference.Ref (p : PluginReference) : String :=
  if p.Digest ≠ "" then p.Repository ++ "@" ++ p.Digest
  else if p.Tag ≠ "" then p.Repository ++ ":" ++ p.Tag
  else p.Repository

/-- `ToolchainReference` from types.go (same shape, distinct type). -/
structure ToolchainReference where
  Repository : String
  Tag : String
  Digest : String
deriving DecidableEq

/-- `ToolchainReference.Ref`. -/
def ToolchainReference.Ref (t : ToolchainReference) : String :=
  if t.Digest ≠ "" then t.Repository ++ "@" ++ t.Digest
  else if t.Tag ≠ "" then t.Repository ++ ":" ++ t.Tag
  else t.Repository

/-- `resolvePluginRefs` from resolve.go: the Go code copies the input slice
and walks it sequentially, leaving digest-pinned and explicitly tagged
entries alone, resolving the rest to the latest semver tag, and aborting the
whole batch on the first failure. -/
def resolvePluginRefs (lister : String → Except String (List String)) :
    List PluginReference → Except String (List PluginReference)
  | [] => .ok []
  | p :: ps =>
    if p.Digest ≠ "" then (resolvePluginRefs lister ps).map (p :: ·)
    else if p.Tag ≠ "" ∧ p.Tag ≠ "latest" then (resolvePluginRefs lister ps).map (p :: ·)
    else
      match resolveLatestTagForRepo lister p.Repository with
      | .error e => .error ("resolving plugin " ++ p.Repository ++ ": " ++ e)
      | .ok tag => (resolvePluginRefs lister ps).map ({ p with Tag := tag } :: ·)

/-! ## Lexical path functions (Go path/filepath, Unix rules)

`filepath.Clean` is embedded by splitting a path into slash-separated
components, folding them through the standard clean step (empty and "."
components vanish, ".." pops the previous component, cannot pop above the
root, and accumulates at the front of a relative path), and rendering the
result; this is exactly the component view of Go's lazybuf algorithm. -/

/-- Does the character list start with the path separator? -/
def isRootedCh : List Char → Bool
  | [] => false
  | c :: _ => c = '/'

/-- One step of `filepath.Clean`. -/
def cleanStep (rooted : Bool) (out : List (List Char)) (p : List Char) : List (List Char) :=
  if p = [] ∨ p = ['.'] then out
  else if p = ['.', '.'] then
    if out ≠ [] ∧ out.getLast? ≠ some ['.', '.'] then out.dropLast
    else if rooted then out
    else out ++ [['.', '.']]
  else out ++ [p]

/-- Clean a component list. -/
def cleanParts (rooted : Bool) (ps : List (List Char)) : List (List Char) :=
  ps.foldl (cleanStep rooted) []

/-- Join components with slashes. -/
def joinParts : List (List Char) → List Char
  | [] => []
  | [p] => p
  | p :: ps => p ++ '/' :: joinParts ps

/-- Render a rooted flag and component list back into path characters. -/
def renderChars (rooted : Bool) (ps : List (List Char)) : List Char :=
  if ps = [] then (if rooted then ['/'] else ['.'])
  else (if rooted then ['/'] else []) ++ joinParts ps

/-- `filepath.Clean` on character lists. -/
def cleanChars (l : List Char) : List Char :=
  if l = [] then ['.']
  else renderChars (isRootedCh l) (cleanParts (isRootedCh l) (splitOnCh '/' l))

/-- `filepath.Clean`. -/
def clean (s : String) : String := ⟨cleanChars s.data⟩

/-- `filepath.IsAbs` (Unix). -/
def goIsAbs (s : String) : Bool := isRootedCh s.data

/-- `strings.HasPrefix`. -/
def strHasPre (s pre : String) : Bool := pre.data.isPrefixOf s.data

/-- `filepath.Join` of two elements: empty elements are skipped and the
joined path is cleaned. -/
def goJoin (a b : String) : String :=
  if a = "" then (if b = "" then "" else clean b)
  else if b = "" then clean a
  else clean ⟨a.data ++ '/' :: b.data⟩

/-- Characters of a path up to and including its last slash. -/
def dirChars (l : List Char) : List Char :=
  (l.reverse.dropWhile (fun c => ¬ c = '/')).reverse

/-- `filepath.Dir`: everything before the final element, cleaned ("." when
there is no separator). -/
def goDir (p : String) : String := clean ⟨dirChars p.data⟩

/-- The rooted flag and cleaned component list of a path string. -/
def pathParts (s : String) : Bool × List (List Char) :=
  (isRootedCh s.data, cleanParts (isRootedCh s.data) (splitOnCh '/' s.data))

/-- `p` lexically lies within the directory `dest` (or is `dest` itself):
same rootedness and `dest`'s cleaned components are a prefix of `p`'s. -/
def withinB (dest p : String) : Bool :=
  (pathParts dest).1 = (pathParts p).1 ∧ (pathParts dest).2.isPrefixOf (pathParts p).2

/-- `p` lies strictly inside the directory `dest`. -/
def strictlyWithinB (dest p : String) : Bool :=
  withinB dest p ∧ (pathParts dest).2 ≠ (pathParts p).2

/-! ## The file system model

An association list from path strings to nodes; the first binding for a key
wins, and an insert drops the older bindings of its key.  Regular files
record how many bytes were written to them; the cache side file holds its
decoded `CacheEntry` (JSON serialisation is embedded as the identity, which
is faithful because `encoding/json` round-trips the `CacheEntry` struct). -/

/-- `CacheEntry` from cache.go. -/
structure CacheEntry where
  Digest : String
  Ref : String
  PulledAt : Nat
  ConfigJSON : String
  Annotations : List (String × String)
deriving DecidableEq

/-- A file-system node. -/
inductive FsNode where
  | dir
  | file (written : Nat)
  | cache (entry : CacheEntry)
deriving DecidableEq

/-- The file system. -/
abbrev Fs := List (String × FsNode)

/-- Look up a path. -/
def lookupFs (fs : Fs) (p : String) : Option FsNode :=
  (fs.find? fun kv => decide (kv.1 = p)).map (·.2)

/-- Create or overwrite a path. -/
def insertFs (p : String) (n : FsNode) (fs : Fs) : Fs :=
  (p, n) :: fs.filter fun kv => !decide (kv.1 = p)

/-- Rendered path strings of all the nonempty component-list segments of a
path, outermost first (the directories `os.MkdirAll` walks). -/
def prefixPaths (rooted : Bool) (ps : List (List Char)) : List String :=
  (List.range ps.length).map fun i => ⟨renderChars rooted (ps.take (i + 1))⟩

/-- Walk of `os.MkdirAll`: each missing segment is created as a directory,
an existing non-directory segment is an error; segments created before an
error persist, as they do on a real file system. -/
def mkdirSteps : List String → Fs → Fs × Option String
  | [], fs => (fs, none)
  | q :: qs, fs =>
    match lookupFs fs q with
    | some .dir => mkdirSteps qs fs
    | some _ => (fs, some ("mkdir " ++ q ++ ": not a directory"))
    | none => mkdirSteps qs (insertFs q .dir fs)

/-- `os.MkdirAll` ("." and "/" always exist and are never created). -/
def mkdirAll (path : String) (fs : Fs) : Fs × Option String :=
  mkdirSteps (prefixPaths (pathParts path).1 (pathParts path).2) fs

/-! ## The secure archive codec (extractTarGz, cleanAndCreate) -/

/-- `maxExtractFileSize` (100 MB). -/
def maxExtractFileSize : Nat := 100 <<< 20

/-- Tar entry types: directories, regular files, and everything else
(symlinks, devices, ...) which extraction silently skips. -/
inductive TarType where
  | dir
  | reg
  | other
deriving DecidableEq

/-- One entry of the (already gzip-decoded and tar-parsed) stream; `size` is
the number of content bytes the tar reader yields for the entry. -/
structure TarEntry where
  name : String
  typeflag : TarType
  size : Nat
deriving DecidableEq

/-- `os.OpenFile(target, O_CREATE|O_WRONLY|O_TRUNC, mode)` followed by the
size-limited copy: fails on an existing directory, otherwise (re)writes the
file with the copied byte count. -/
def writeFileNode (target : String) (written : Nat) (fs : Fs) : Except String Fs :=
  match lookupFs fs target with
  | some .dir => .error ("creating file " ++ target ++ ": is a directory")
  | _ => .ok (insertFs target (.file written) fs)

/-- Process one tar entry exactly as the loop body of `extractTarGz`: clean
and validate the entry path, then create the directory / copy the
size-capped file / skip.  Returns the updated file system and an error
message if the whole extraction must stop. -/
def extractEntry (destDir cleanDest : String) (fs : Fs) (e : TarEntry) :
    Fs × Option String :=
  let name := clean e.name
  if strHasPre name ".." ∨ goIsAbs name then
    (fs, some ("invalid path in archive: " ++ e.name))
  else
    let target := goJoin destDir name
    if ! strHasPre (clean target) cleanDest then
      (fs, some ("path escapes destination: " ++ e.name))
    else
      match e.typeflag with
      | .dir =>
        let m := mkdirAll target fs
        match m.2 with
        | some err => (m.1, some ("creating directory " ++ target ++ ": " ++ err))
        | none => (m.1, none)
      | .reg =>
        let m := mkdirAll (goDir target) fs
        match m.2 with
        | some err => (m.1, some ("creating parent directory for " ++ target ++ ": " ++ err))
        | none =>
          match writeFileNode target (min e.size (maxExtractFileSize + 1)) m.1 with
          | .error err => (m.1, some err)
          | .ok fs'' =>
            if min e.size (maxExtractFileSize + 1) > maxExtractFileSize then
              (fs'', some ("file " ++ e.name ++ " exceeds max size (" ++
                toString maxExtractFileSize ++ " bytes)"))
            else (fs'', none)
      | .other => (fs, none)

/-- `extractTarGz` from the archive codec: the gzip/tar decoding of the
stream is embedded as the already-parsed entry list; entries are processed
in order until the first error, whose partial file-system state persists. -/
def extractTarGz (entries : List TarEntry) (destDir : String) (fs : Fs) :
    Fs × Option String :=
  let cleanDest := clean destDir
  entries.foldl
    (fun acc e =>
      match acc.2 with
      | some _ => acc
      | none => extractEntry destDir cleanDest acc.1 e)
    (fs, none)

/-- The loop body of `extractTarGz` as a named step function (definitionally
the fold's lambda). -/
def extractStep (destDir cleanDest : String) (acc : Fs × Option String)
    (e : TarEntry) : Fs × Option String :=
  match acc.2 with
  | some _ => acc
  | none => extractEntry destDir cleanDest acc.1 e

/-- `cleanAndCreate`: `os.RemoveAll` of the destination tree followed by
`os.MkdirAll` of the destination. -/
def cleanAndCreate (dir : String) (fs : Fs) : Fs × Option String :=
  mkdirAll dir (fs.filter fun kv => !withinB dir kv.1)

/-! ## The digest cache (cache.go) -/

/-- `cacheFileName`. -/
def cacheFileName : String := ".oci-cache.json"

/-- `ReadCacheEntry`: read and decode the side file; a missing path or a
node that is not a decodable cache record is an error. -/
def ReadCacheEntry (dir : String) (fs : Fs) : Except String CacheEntry :=
  match lookupFs fs (goJoin dir cacheFileName) with
  | some (.cache e) => .ok e
  | some _ => .error "unmarshalling cache entry"
  | none => .error "reading cache entry"

/-- `IsCached`: a cache record exists and its digest matches. -/
def IsCached (dir digest : String) (fs : Fs) : Bool :=
  match ReadCacheEntry dir fs with
  | .ok entry => entry.Digest = digest
  | .error _ => false

/-- `WriteCacheEntry`: stamp the record with the current time and persist it
as the side file (`now` stands for `time.Now()`). -/
def WriteCacheEntry (dir : String) (entry : CacheEntry) (now : Nat) (fs : Fs) : Fs :=
  insertFs (goJoin dir cacheFileName) (.cache { entry with PulledAt := now }) fs

/-! ## The pull operation (pull.go)

Network interactions are an oracle: the manifest resolution (the digest),
the manifest's annotation map, the config blob, and the gzip-decoded content
layer.  The preliminary reference parsing and the content-layer media-type
search are folded into the oracle's error cases. -/

/-- The transport collaborator's answers for one pull. -/
structure PullOracle where
  resolveDigest : Except String String
  fetchAnnotations : Except String (List (String × String))
  fetchConfig : Except String String
  fetchLayer : Except String (List TarEntry)

/-- `pullResult` from types.go. -/
structure pullResult where
  Digest : String
  Ref : String
  Cached : Bool
  ConfigJSON : String
  Annotations : List (String × String)
deriving DecidableEq

/-- `pull` from pull.go: resolve the manifest digest, short-circuit on a
cache hit, otherwise fetch, wipe and recreate the destination, extract, and
write a fresh cache record.  Returns the final file system alongside the
result or error. -/
def pull (o : PullOracle) (ref destDir : String) (now : Nat) (fs : Fs) :
    Fs × Except String pullResult :=
  match o.resolveDigest with
  | .error e => (fs, .error ("resolving " ++ ref ++ ": " ++ e))
  | .ok digest =>
    if IsCached destDir digest fs then
      match ReadCacheEntry destDir fs with
      | .ok entry => (fs, .ok ⟨digest, ref, true, entry.ConfigJSON, entry.Annotations⟩)
      | .error _ => (fs, .ok ⟨digest, ref, true, "", []⟩)
    else
      match o.fetchAnnotations with
      | .error e => (fs, .error ("fetching manifest for " ++ ref ++ ": " ++ e))
      | .ok anns =>
        match o.fetchConfig with
        | .error e => (fs, .error ("fetching config for " ++ ref ++ ": " ++ e))
        | .ok configJSON =>
          match o.fetchLayer with
          | .error e => (fs, .error ("fetching content layer for " ++ ref ++ ": " ++ e))
          | .ok entries =>
            let cc := cleanAndCreate destDir fs
            match cc.2 with
            | some e => (cc.1, .error e)
            | none =>
              let ext := extractTarGz entries destDir cc.1
              match ext.2 with
              | some e => (ext.1, .error ("extracting content for " ++ ref ++ ": " ++ e))
              | none =>
                let fs3 := WriteCacheEntry destDir
                  ⟨digest, ref, 0, configJSON, anns⟩ now ext.1
                (fs3, .ok ⟨digest, ref, false, configJSON, anns⟩)

/-! ### Analysis vocabulary for the path machinery -/

/-- A path component that survives cleaning untouched: nonempty, not ".",
not "..", and free of separators. -/
def goodPart (q : List Char) : Prop :=
  q ≠ [] ∧ q ≠ ['.'] ∧ q ≠ ['.', '.'] ∧ '/' ∉ q

/-- The shape of a cleaned component list: for a rooted path only good
components; for a relative path a block of ".." components followed by good
components. -/
def NormParts : Bool → List (List Char) → Prop
  | true, ps => ∀ q ∈ ps, goodPart q
  | false, ps => ∃ k rest, ps = List.replicate k ['.', '.'] ++ rest ∧ ∀ q ∈ rest, goodPart q

/-- The rendered directory chain of a path, outermost first (what
`os.MkdirAll` touches; for the destination directory, what must already
exist). -/
def ancPaths (dest : String) : List String :=
  prefixPaths (pathParts dest).1 (pathParts dest).2

/-- Every segment of the destination directory chain exists as a
directory. -/
def AncClosed (dest : String) (fs : Fs) : Prop :=
  ∀ q ∈ ancPaths dest, lookupFs fs q = some FsNode.dir

/-- A malicious archive entry, in the words of the claim: after cleaning,
its path is absolute or begins with a parent-directory traversal, or the
joined path escapes the destination directory. -/
def badEntry (dest : String) (e : TarEntry) : Prop :=
  goIsAbs (clean e.name) = true ∨ strHasPre (clean e.name) ".." = true ∨
    withinB dest (goJoin dest (clean e.name)) = false

/-! ## Artifact types (types.go) -/

/-- Default registry base paths (registries.go). -/
def DefaultPluginRegistry : String := "gsoci.azurecr.io/giantswarm/klaus-plugins"

/-- Default toolchain registry base path. -/
def DefaultToolchainRegistry : String := "gsoci.azurecr.io/giantswarm/klaus-toolchains"

/-- `Author`. -/
structure Author where
  Name : String
  Email : String
  URL : String
deriving DecidableEq

/-- `Plugin`: manifest metadata plus the components discovered at push time. -/
structure Plugin where
  Name : String
  Version : String
  Description : String
  Author : Option Author
  Homepage : String
  SourceRepo : String
  License : String
  Keywords : List String
  Skills : List String
  Commands : List String
  Agents : List String
  HasHooks : Bool
  MCPServers : List String
  LSPServers : List String
deriving DecidableEq

/-- The zero value of `Plugin` (a Go `make`d slice element). -/
def Plugin.zero : Plugin := ⟨"", "", "", none, "", "", "", [], [], [], [], false, [], []⟩

/-- `Toolchain`: metadata of a toolchain image, from manifest annotations. -/
structure Toolchain where
  Name : String
  Version : String
  Description : String
  Author : Option Author
  Homepage : String
  SourceRepo : String
  License : String
  Keywords : List String
deriving DecidableEq

/-- `ArtifactInfo`: OCI-level metadata of a described or pulled artifact. -/
structure ArtifactInfo where
  Ref : String
  Tag : String
  Digest : String
deriving DecidableEq

/-- The zero value of `ArtifactInfo`. -/
def ArtifactInfo.zero : ArtifactInfo := ⟨"", "", ""⟩

/-- `DescribedPlugin` (embedded `ArtifactInfo` and `Plugin` become fields). -/
structure DescribedPlugin where
  info : ArtifactInfo
  plugin : Plugin
deriving DecidableEq

/-- The zero value of `DescribedPlugin`. -/
def DescribedPlugin.zero : DescribedPlugin := ⟨ArtifactInfo.zero, Plugin.zero⟩

/-- `DescribedToolchain`. -/
structure DescribedToolchain where
  info : ArtifactInfo
  toolchain : Toolchain
deriving DecidableEq

/-- `Personality`: metadata plus the declared composition. -/
structure Personality where
  Name : String
  Description : String
  Author : Option Author
  Homepage : String
  SourceRepo : String
  License : String
  Keywords : List String
  Toolchain : ToolchainReference
  Plugins : List PluginReference
  Version : String
deriving DecidableEq

/-- `ResolvedDependencies`. -/
structure ResolvedDependencies where
  Toolchain : Option DescribedToolchain
  Plugins : List DescribedPlugin
  Warnings : List String
deriving DecidableEq

/-! ## Describe operations (describe.go)

The network part of a describe (manifest resolution, config-blob fetch and
decode, annotation parsing) is an oracle keyed by the resolved reference;
the reference resolution in front of it is the embedded resolver.  The
tag/digest portion of the resolved reference (`newRepository`'s split of the
reference, done by the oras reference parser) is embedded with the same
last-separator convention the package's own helpers use. -/

/-- The tag or digest portion of a fully qualified reference. -/
def refTagPart (ref : String) : String :=
  if hasDigest ref then dropStr ref (firstIndexCh ref '@' + 1)
  else extractTag ref

/-- `DescribePlugin`: resolve the reference, then fetch digest and config
metadata (`fetchP`), populating `Version` and the `ArtifactInfo` from the
resolved reference. -/
def DescribePlugin (lister : String → Except String (List String))
    (fetchP : String → Except String (String × Plugin)) (ref : String) :
    Except String DescribedPlugin :=
  match resolveArtifactRef lister ref DefaultPluginRegistry with
  | .error e => .error ("resolving plugin ref \"" ++ ref ++ "\": " ++ e)
  | .ok resolved =>
    match fetchP resolved with
    | .error e => .error e
    | .ok dm =>
      let tag := refTagPart resolved
      .ok ⟨⟨resolved, tag, dm.1⟩, { dm.2 with Version := tag }⟩

/-- `DescribeToolchain`: resolve the reference, then fetch digest and
annotation-derived metadata (`fetchT`). -/
def DescribeToolchain (lister : String → Except String (List String))
    (fetchT : String → Except String (String × Toolchain)) (ref : String) :
    Except String DescribedToolchain :=
  match resolveArtifactRef lister ref DefaultToolchainRegistry with
  | .error e => .error ("resolving toolchain ref \"" ++ ref ++ "\": " ++ e)
  | .ok resolved =>
    match fetchT resolved with
    | .error e => .error e
    | .ok dm =>
      let tag := refTagPart resolved
      .ok ⟨⟨resolved, tag, dm.1⟩, { dm.2 with Version := tag }⟩

/-! ## The dependency resolver (ResolvePersonalityDeps)

One task per declared dependency runs on the bounded worker pool; each task
ends by taking the shared mutex and either appending a warning or writing
its result (the toolchain slot, or slot `i` of a pre-sized plugin slice that
keeps declaration order).  Tasks always return nil to the errgroup, so
absent a context cancellation the group never errors.  The serialised
completions are modelled as a fold over an arbitrary permutation `σ` of the
declared tasks. -/

/-- One resolution task: the toolchain, or the i-th declared plugin. -/
inductive DepTask where
  | toolchain
  | plugin (i : Nat)
deriving DecidableEq

/-- The declared tasks, in declaration order. -/
def depTasks (p : Personality) : List DepTask :=
  (if p.Toolchain.Repository ≠ "" then [DepTask.toolchain] else []) ++
    (List.range p.Plugins.length).map DepTask.plugin

/-- The mutex-protected shared accumulator. -/
structure DepState where
  tc : Option DescribedToolchain
  arr : List DescribedPlugin
  warns : List String
deriving DecidableEq

/-- Completion of one task: the describe outcome is recorded under the
mutex, a failure as a `"<kind> <ref>: <error>"` warning, a success into the
toolchain slot or the task's own plugin slot. -/
def applyDepTask
    (dT : String → Except String DescribedToolchain)
    (dP : String → Except String DescribedPlugin)
    (p : Personality) (st : DepState) : DepTask → DepState
  | .toolchain =>
    match dT p.Toolchain.Ref with
    | .error e => { st with warns := st.warns ++ ["toolchain " ++ p.Toolchain.Ref ++ ": " ++ e] }
    | .ok tc => { st with tc := some tc }
  | .plugin i =>
    match p.Plugins[i]? with
    | none => st
    | some pRef =>
      match dP pRef.Ref with
      | .error e => { st with warns := st.warns ++ ["plugin " ++ pRef.Ref ++ ": " ++ e] }
      | .ok dp => { st with arr := st.arr.set i dp }

/-- The non-zero test of the final collection loop. -/
def nonzeroDP (dp : DescribedPlugin) : Bool :=
  dp.plugin.Name ≠ "" ∨ dp.info.Ref ≠ ""

/-- `ResolvePersonalityDeps`: run every declared task (folded over the
completion order `σ`), then compact the pre-sized plugin slice, keeping only
the non-zero (successfully resolved) entries in declaration order. -/
def ResolvePersonalityDeps
    (dT : String → Except String DescribedToolchain)
    (dP : String → Except String DescribedPlugin)
    (p : Personality) (σ : List DepTask) : ResolvedDependencies :=
  let st := σ.foldl (applyDepTask dT dP p)
    ⟨none, List.replicate p.Plugins.length DescribedPlugin.zero, []⟩
  ⟨st.tc, st.arr.filter nonzeroDP, st.warns⟩

/-- The warning a failing plugin describe contributes. -/
def pluginFailMsg (dP : String → Except String DescribedPlugin)
    (r : PluginReference) : Option String :=
  match dP r.Ref with
  | .error e => some ("plugin " ++ r.Ref ++ ": " ++ e)
  | .ok _ => none

/-- The warning a task contributes, if its describe fails. -/
def msgOf (dT : String → Except String DescribedToolchain)
    (dP : String → Except String DescribedPlugin)
    (p : Personality) : DepTask → Option String
  | .toolchain =>
    match dT p.Toolchain.Ref with
    | .error e => some ("toolchain " ++ p.Toolchain.Ref ++ ": " ++ e)
    | .ok _ => none
  | .plugin i => (p.Plugins[i]?).bind (pluginFailMsg dP)

/-- The plugin-slot value a task writes, if its describe succeeds. -/
def valOf (dP : String → Except String DescribedPlugin)
    (p : Personality) (j : Nat) : Option DescribedPlugin :=
  (p.Plugins[j]?).bind fun r => (dP r.Ref).toOption

/-- The warnings of all failing dependencies, in declaration order
(toolchain first). -/
def depFailMsgs (dT : String → Except String DescribedToolchain)
    (dP : String → Except String DescribedPlugin)
    (p : Personality) : List String :=
  (if p.Toolchain.Repository ≠ "" then
    match dT p.Toolchain.Ref with
    | .error e => ["toolchain " ++ p.Toolchain.Ref ++ ": " ++ e]
    | .ok _ => []
  else []) ++ p.Plugins.filterMap (pluginFailMsg dP)

/-- The successfully described plugins, in declaration order. -/
def depSuccesses (dP : String → Except String DescribedPlugin)
    (p : Personality) : List DescribedPlugin :=
  p.Plugins.filterMap fun r => (dP r.Ref).toOption

/-- The toolchain result: some exactly when declared and described. -/
def depToolchainResult (dT : String → Except String DescribedToolchain)
    (p : Personality) : Option DescribedToolchain :=
  if p.Toolchain.Repository ≠ "" then (dT p.Toolchain.Ref).toOption else none

/-- The fully-written plugin slice: slot `j` holds the successful describe
of the j-th declared plugin, or the zero value. -/
def canonicalArr (dP : String → Except String DescribedPlugin)
    (p : Personality) : List DescribedPlugin :=
  (List.range p.Plugins.length).map fun j =>
    (valOf dP p j).getD DescribedPlugin.zero

/-! ## Theorems: the semver selector (C4, C5) -/

theorem compareSemver_gt_iff {a b : SemVer} :
    compareSemver a b = .gt ↔ semverKey b < semverKey a := compare_gt_iff_gt

theorem compareSemver_eq_iff {a b : SemVer} :
    compareSemver a b = .eq ↔ semverKey a = semverKey b := compare_eq_iff_eq

theorem insertDesc_perm (x : String × SemVer) (l : List (String × SemVer)) :
    (insertDesc x l).Perm (x :: l) := by
  induction l with
  | nil => simp [insertDesc]
  | cons y ys ih =>
    by_cases h : compareSemver y.2 x.2 = .gt
    · simp only [insertDesc, if_pos h]
      exact (ih.cons y).trans (List.Perm.swap x y ys)
    · simp [insertDesc, if_neg h]

theorem sortPairsDesc_perm (l : List (String × SemVer)) :
    (sortPairsDesc l).Perm l := by
  induction l with
  | nil => simp [sortPairsDesc]
  | cons x xs ih => exact (insertDesc_perm x (sortPairsDesc xs)).trans (ih.cons x)

theorem insertDesc_sorted (x : String × SemVer) {l : List (String × SemVer)}
    (h : SortedDescPairs l) : SortedDescPairs (insertDesc x l) := by
  induction l with
  | nil => simp [insertDesc, SortedDescPairs]
  | cons y ys ih =>
    rcases List.pairwise_cons.mp h with ⟨hy, hys⟩
    by_cases hc : compareSemver y.2 x.2 = .gt
    · have hxy : semverKey x.2 < semverKey y.2 := compareSemver_gt_iff.mp hc
      simp only [insertDesc, if_pos hc, SortedDescPairs]
      refine List.pairwise_cons.mpr ⟨?_, ih hys⟩
      intro z hz
      rcases List.mem_cons.mp ((insertDesc_perm x ys).mem_iff.mp hz) with rfl | hzys
      · exact le_of_lt hxy
      · exact hy z hzys
    · have hyx : semverKey y.2 ≤ semverKey x.2 :=
        le_of_not_lt fun hlt => hc (compareSemver_gt_iff.mpr hlt)
      simp only [insertDesc, if_neg hc, SortedDescPairs]
      refine List.pairwise_cons.mpr ⟨?_, h⟩
      intro z hz
      rcases List.mem_cons.mp hz with rfl | hzys
      · exact hyx
      · exact le_trans (hy z hzys) hyx

theorem sortPairsDesc_sorted (l : List (String × SemVer)) :
    SortedDescPairs (sortPairsDesc l) := by
  induction l with
  | nil => simp [sortPairsDesc, SortedDescPairs]
  | cons x xs ih => exact insertDesc_sorted x ih

theorem head?_insertDesc (x : String × SemVer) (l : List (String × SemVer)) :
    (insertDesc x l).head? =
      some (match l.head? with
        | some y => if compareSemver y.2 x.2 = .gt then y else x
        | none => x) := by
  cases l with
  | nil => simp [insertDesc]
  | cons y ys =>
    by_cases h : compareSemver y.2 x.2 = .gt <;> simp [insertDesc, h]

theorem head?_sortPairsDesc (l : List (String × SemVer)) :
    (sortPairsDesc l).head? = firstMaxPair l := by
  induction l with
  | nil => rfl
  | cons x xs ih =>
    simp only [sortPairsDesc, firstMaxPair, head?_insertDesc, ih]
    cases firstMaxPair xs with
    | none => rfl
    | some m => by_cases h : compareSemver m.2 x.2 = .gt <;> simp [h]

theorem pairsOf_cons (t : String) (ts : List String) :
    pairsOf (t :: ts) =
      match parseSemver t with
      | none => pairsOf ts
      | some v => (t, v) :: pairsOf ts := by
  cases h : parseSemver t <;> simp [pairsOf, List.filterMap_cons, h]

theorem foldl_latest_some (tags : List String) (b : SemVer) (bt : String) :
    tags.foldl latestStep (some b, bt) =
      match firstMaxPair (pairsOf tags) with
      | none => (some b, bt)
      | some m => if compareSemver m.2 b = .gt then (some m.2, m.1) else (some b, bt) := by
  induction tags generalizing b bt with
  | nil => rfl
  | cons t ts ih =>
    rw [List.foldl_cons, pairsOf_cons]
    cases hp : parseSemver t with
    | none =>
      have hstep : latestStep (some b, bt) t = (some b, bt) := by simp [latestStep, hp]
      rw [hstep, ih]
    | some v =>
      have hstep : latestStep (some b, bt) t =
          if compareSemver v b = .gt then (some v, t) else (some b, bt) := by
        simp [latestStep, hp]
      rw [hstep]
      by_cases hvb : compareSemver v b = .gt
      · rw [if_pos hvb, ih]
        cases hfm : firstMaxPair (pairsOf ts) with
        | none => simp [firstMaxPair, hfm, hvb]
        | some m =>
          by_cases hmv : compareSemver m.2 v = .gt
          · have hmb : compareSemver m.2 b = .gt :=
              compareSemver_gt_iff.mpr
                (lt_trans (compareSemver_gt_iff.mp hvb) (compareSemver_gt_iff.mp hmv))

            simp [firstMaxPair, hfm, hmv, hmb]
          · simp [firstMaxPair, hfm, hmv, hvb]
      · rw [if_neg hvb, ih]
        cases hfm : firstMaxPair (pairsOf ts) with
        | none => simp [firstMaxPair, hfm, hvb]
        | some m =>
          by_cases hmv : compareSemver m.2 v = .gt
          · simp [firstMaxPair, hfm, hmv]
          · have hmb : ¬ compareSemver m.2 b = .gt := by
              intro hgt
              have h1 : semverKey m.2 ≤ semverKey v :=
                le_of_not_lt fun hlt => hmv (compareSemver_gt_iff.mpr hlt)
              have h2 : semverKey v ≤ semverKey b :=
                le_of_not_lt fun hlt => hvb (compareSemver_gt_iff.mpr hlt)
              exact absurd (compareSemver_gt_iff.mp hgt)
                (not_lt_of_le (le_trans h1 h2))
            simp [firstMaxPair, hfm, hmv, hvb, hmb]

theorem foldl_latest_none (tags : List String) :
    tags.foldl latestStep (none, "") =
      match firstMaxPair (pairsOf tags) with
      | none => ((none : Option SemVer), "")
      | some m => (some m.2, m.1) := by
  cases tags with
  | nil => rfl
  | cons t ts =>
    rw [List.foldl_cons, pairsOf_cons]
    cases hp : parseSemver t with
    | none =>
      have hstep : latestStep (none, "") t = (none, "") := by simp [latestStep, hp]
      rw [hstep, foldl_latest_none ts]
    | some v =>
      have hstep : latestStep (none, "") t = (some v, t) := by simp [latestStep, hp]
      rw [hstep, foldl_latest_some]
      cases hfm : firstMaxPair (pairsOf ts) with
      | none => simp [firstMaxPair, hfm]
      | some m =>
        by_cases hmv : compareSemver m.2 v = .gt <;> simp [firstMaxPair, hfm, hmv]

theorem mem_pairsOf {tags : List String} {x : String × SemVer}
    (h : x ∈ pairsOf tags) : x.1 ∈ tags ∧ parseSemver x.1 = some x.2 := by
  rcases List.mem_filterMap.mp h with ⟨t, ht, hmap⟩
  cases hp : parseSemver t with
  | none => rw [hp] at hmap; simp at hmap
  | some v =>
    rw [hp] at hmap
    simp only [Option.map_some', Option.some.injEq] at hmap
    cases hmap
    exact ⟨ht, hp⟩

theorem firstMaxPair_mem {l : List (String × SemVer)} {m : String × SemVer}
    (h : firstMaxPair l = some m) : m ∈ l := by
  induction l with
  | nil => simp [firstMaxPair] at h
  | cons x xs ih =>
    simp only [firstMaxPair] at h
    cases hfm : firstMaxPair xs with
    | none => rw [hfm] at h; cases h; exact List.mem_cons_self _ _
    | some m' =>
      rw [hfm] at h
      simp only at h
      by_cases hc : compareSemver m'.2 x.2 = .gt
      · rw [if_pos hc] at h; cases h; exact List.mem_cons_of_mem _ (ih hfm)
      · rw [if_neg hc] at h; cases h; exact List.mem_cons_self _ _

theorem firstMaxPair_eq_none_iff {l : List (String × SemVer)} :
    firstMaxPair l = none ↔ l = [] := by
  cases l with
  | nil => simp [firstMaxPair]
  | cons x xs =>
    simp only [firstMaxPair]
    cases firstMaxPair xs with
    | none => simp
    | some m => by_cases hc : compareSemver m.2 x.2 = .gt <;> simp [hc]

theorem parseSemver_ne_empty {t : String} {v : SemVer}
    (h : parseSemver t = some v) : t ≠ "" := by
  intro he
  have h0 : parseSemver "" = none := by decide
  rw [he, h0] at h
  exact Option.noConfusion h

theorem map_fst_pairsOf (tags : List String) :
    (pairsOf tags).map Prod.fst = tags.filter fun t => (parseSemver t).isSome := by
  induction tags with
  | nil => rfl
  | cons t ts ih =>
    rw [pairsOf_cons]
    cases hp : parseSemver t <;> simp [List.filter_cons, hp, ih]

theorem filter_comp_map {α β : Type _} (f : α → β) (p : β → Bool) (l : List α) :
    (l.map f).filter p = (l.filter fun a => p (f a)).map f := by
  induction l with
  | nil => rfl
  | cons a l ih =>
    by_cases h : p (f a) <;> simp [List.filter_cons, h, ih]

theorem filter_insertDesc_pos {key0 : SemKey} (x : String × SemVer)
    {l : List (String × SemVer)} (hx : semverKey x.2 = key0) (h : SortedDescPairs l) :
    (insertDesc x l).filter (fun z => decide (semverKey z.2 = key0)) =
      x :: l.filter (fun z => decide (semverKey z.2 = key0)) := by
  induction l with
  | nil => simp [insertDesc, hx]
  | cons y ys ih =>
    rcases List.pairwise_cons.mp h with ⟨_, hys⟩
    by_cases hc : compareSemver y.2 x.2 = .gt
    · have hlt : semverKey x.2 < semverKey y.2 := compareSemver_gt_iff.mp hc
      have hyn : ¬ (semverKey y.2 = key0) := by
        intro he
        rw [← hx] at he
        exact absurd he.symm (ne_of_lt hlt)
      simp only [insertDesc, if_pos hc, List.filter_cons, decide_eq_true_eq,
        hyn, if_false]
      exact ih hys
    · simp only [insertDesc, if_neg hc, List.filter_cons, decide_eq_true_eq, hx]
      simp

theorem filter_insertDesc_neg {key0 : SemKey} (x : String × SemVer)
    {l : List (String × SemVer)} (hx : ¬ semverKey x.2 = key0) :
    (insertDesc x l).filter (fun z => decide (semverKey z.2 = key0)) =
      l.filter (fun z => decide (semverKey z.2 = key0)) := by
  induction l with
  | nil => simp [insertDesc, hx]
  | cons y ys ih =>
    by_cases hc : compareSemver y.2 x.2 = .gt
    · simp only [insertDesc, if_pos hc, List.filter_cons, ih]
    · simp only [insertDesc, if_neg hc, List.filter_cons, hx]
      simp [hx]

theorem filter_sortPairsDesc (l : List (String × SemVer)) (key0 : SemKey) :
    (sortPairsDesc l).filter (fun z => decide (semverKey z.2 = key0)) =
      l.filter (fun z => decide (semverKey z.2 = key0)) := by
  induction l with
  | nil => rfl
  | cons x xs ih =>
    by_cases hx : semverKey x.2 = key0
    · rw [show sortPairsDesc (x :: xs) = insertDesc x (sortPairsDesc xs) from rfl,
        filter_insertDesc_pos x hx (sortPairsDesc_sorted xs), ih, List.filter_cons,
        if_pos (by simpa using hx)]
    · rw [show sortPairsDesc (x :: xs) = insertDesc x (sortPairsDesc xs) from rfl,
        filter_insertDesc_neg x hx, ih, List.filter_cons, if_neg (by simpa using hx)]

/-- C4: for every input tag list, `SortedVersions` (`sortedSemverTags`)
returns exactly the input tags parseable as semantic versions, sorted
descending by semantic-version precedence, and — being a pure function whose
sort is stable — repeated calls never reorder equal-precedence tags: the
equal-precedence tags of the output appear exactly as they do in the
filtered input. -/
theorem c4_sortedVersions_filters_and_sorts (tags : List String) :
    (sortedSemverTags tags).Perm (tags.filter fun t => (parseSemver t).isSome) ∧
    (sortedSemverTags tags).Pairwise semverGEStr ∧
    ∀ k, (sortedSemverTags tags).filter (sameVerB k) =
      (tags.filter fun t => (parseSemver t).isSome).filter (sameVerB k) := by
  refine ⟨?_, ?_, ?_⟩
  · have h1 : (sortedSemverTags tags).Perm ((pairsOf tags).map Prod.fst) :=
      (sortPairsDesc_perm (pairsOf tags)).map Prod.fst
    rw [map_fst_pairsOf] at h1
    exact h1
  · have hs : SortedDescPairs (sortPairsDesc (pairsOf tags)) :=
      sortPairsDesc_sorted (pairsOf tags)
    have hmem : ∀ x ∈ sortPairsDesc (pairsOf tags), parseSemver x.1 = some x.2 :=
      fun x hx =>
        (mem_pairsOf ((sortPairsDesc_perm (pairsOf tags)).mem_iff.mp hx)).2
    unfold sortedSemverTags
    rw [List.pairwise_map]
    exact hs.imp_of_mem fun {a b} ha hb hle =>
      ⟨a.2, b.2, hmem a ha, hmem b hb, hle⟩
  · intro k
    cases hk : parseSemver k with
    | none =>
      have hfalse : ∀ s, sameVerB k s = false := by
        intro s
        unfold sameVerB
        rw [hk]
      have h1 : ∀ (l : List String), l.filter (sameVerB k) = [] := by
        intro l
        induction l with
        | nil => rfl
        | cons a l ih => simp [List.filter_cons, hfalse, ih]
      rw [h1, h1]
    | some vk =>
      have hcong : ∀ (l : List (String × SemVer)),
          (∀ x ∈ l, parseSemver x.1 = some x.2) →
          l.filter (fun z => sameVerB k z.1) =
            l.filter (fun z => decide (semverKey z.2 = semverKey vk)) := by
        intro l hl
        refine List.filter_congr fun x hx => ?_
        have hp := hl x hx
        unfold sameVerB
        rw [hk, hp]
        simp only [decide_eq_decide]
        exact compareSemver_eq_iff
      have hmemS : ∀ x ∈ sortPairsDesc (pairsOf tags), parseSemver x.1 = some x.2 :=
        fun x hx =>
          (mem_pairsOf ((sortPairsDesc_perm (pairsOf tags)).mem_iff.mp hx)).2
      have hmemP : ∀ x ∈ pairsOf tags, parseSemver x.1 = some x.2 :=
        fun x hx => (mem_pairsOf hx).2
      unfold sortedSemverTags
      rw [filter_comp_map, hcong _ hmemS, filter_sortPairsDesc, ← hcong _ hmemP,
        ← filter_comp_map, map_fst_pairsOf]

/-- C5: for every input tag list, `Highest` (`LatestSemverTag`) equals the
head of `SortedVersions` (`sortedSemverTags`), and is the empty string
exactly when the list contains no valid semver tag. -/
theorem c5_latestSemverTag_is_head_of_sorted (tags : List String) :
    LatestSemverTag tags = (sortedSemverTags tags).headD "" ∧
    (LatestSemverTag tags = "" ↔ ∀ t ∈ tags, parseSemver t = none) := by
  have hhead : (sortedSemverTags tags).headD "" =
      match firstMaxPair (pairsOf tags) with
      | none => ""
      | some m => m.1 := by
    rw [List.headD_eq_head?_getD]
    unfold sortedSemverTags
    rw [List.head?_map, head?_sortPairsDesc]
    cases firstMaxPair (pairsOf tags) <;> rfl
  have hlat : LatestSemverTag tags =
      match firstMaxPair (pairsOf tags) with
      | none => ""
      | some m => m.1 := by
    unfold LatestSemverTag
    rw [foldl_latest_none]
    cases firstMaxPair (pairsOf tags) <;> rfl
  constructor
  · rw [hlat, hhead]
  · rw [hlat]
    cases hfm : firstMaxPair (pairsOf tags) with
    | none =>
      simp only
      constructor
      · intro _
        have hnil : pairsOf tags = [] := firstMaxPair_eq_none_iff.mp hfm
        intro t ht
        by_contra hne
        cases hp : parseSemver t with
        | none => exact hne hp
        | some v =>
          have : (t, v) ∈ pairsOf tags :=
            List.mem_filterMap.mpr ⟨t, ht, by rw [hp]; rfl⟩
          rw [hnil] at this
          exact absurd this (List.not_mem_nil _)
      · intro _; trivial
    | some m =>
      simp only
      have hm := mem_pairsOf (firstMaxPair_mem hfm)
      constructor
      · intro he
        exact absurd he (parseSemver_ne_empty hm.2)
      · intro hall
        have h2 := hm.2
        rw [hall m.1 hm.1] at h2
        exact Option.noConfusion h2

/-! ## Theorems: the reference resolver (C6, C8) -/

theorem extractTag_ne_empty_tagIdx {r : String} (h : extractTag r ≠ "")
    (hd : hasDigest r = false) : lastIndexCh r ':' > lastIndexCh r '/' := by
  by_contra hnot
  apply h
  unfold extractTag
  rw [if_neg (by rw [hd]; exact Bool.false_ne_true), if_neg hnot]

/-- C6: resolving an identifier that (after whitespace trimming) is a full
reference — it contains a path separator — and carries a digest or an
explicit tag other than "latest" succeeds and returns the trimmed identifier
byte for byte unchanged, so resolution is idempotent on such outputs. -/
theorem c6_resolve_qualified_ref_unchanged
    (lister : String → Except String (List String)) (ref registryBase : String)
    (hsep : containsCh (goTrimSpace ref) '/' = true)
    (hqual : hasDigest (goTrimSpace ref) = true ∨
      (extractTag (goTrimSpace ref) ≠ "" ∧ extractTag (goTrimSpace ref) ≠ "latest")) :
    resolveArtifactRef lister ref registryBase = .ok (goTrimSpace ref) := by
  have hne : ¬ (goTrimSpace ref = "") := by
    intro h
    rw [h] at hsep
    exact absurd hsep (by decide)
  simp only [resolveArtifactRef]
  rw [if_neg hne, if_pos hsep]
  cases hd : hasDigest (goTrimSpace ref) with
  | true =>
    have htod : hasTagOrDigest (goTrimSpace ref) = true := by
      unfold hasTagOrDigest
      rw [hd, Bool.true_or]
    simp [htod]
  | false =>
    rcases hqual with hq | ⟨h1, h2⟩
    · exact absurd hq (by rw [hd]; exact Bool.false_ne_true)
    · have htag := extractTag_ne_empty_tagIdx h1 hd
      have htod : hasTagOrDigest (goTrimSpace ref) = true := by
        unfold hasTagOrDigest
        rw [hd, Bool.false_or, decide_eq_true_eq]
        exact htag
      simp [htod, h2]

/-- Witness for C6 at a digest reference and at an explicitly tagged
reference surrounded by whitespace. -/
theorem c6_resolve_qualified_ref_unchanged_witness :
    resolveArtifactRef (fun _ => .error "boom") " reg.io/a/b:v1.0.0 " "base" =
      .ok "reg.io/a/b:v1.0.0" ∧
    resolveArtifactRef (fun _ => .error "boom") "reg.io/a/b@sha256:abc" "base" =
      .ok "reg.io/a/b@sha256:abc" := by
  constructor
  · have h := c6_resolve_qualified_ref_unchanged (fun _ => .error "boom")
      " reg.io/a/b:v1.0.0 " "base" (by decide) (.inr ⟨by decide, by decide⟩)
    rw [show goTrimSpace " reg.io/a/b:v1.0.0 " = "reg.io/a/b:v1.0.0" from by decide] at h
    exact h
  · have h := c6_resolve_qualified_ref_unchanged (fun _ => .error "boom")
      "reg.io/a/b@sha256:abc" "base" (by decide) (.inl (by decide))
    rw [show goTrimSpace "reg.io/a/b@sha256:abc" = "reg.io/a/b@sha256:abc" from by decide] at h
    exact h

/-- C8: batch resolution of plugin references works element-wise on a fresh
copy — the embedding is a pure function of the input list, which the Go code
mirrors by copying the value-struct slice before touching it, so the
caller's input is never mutated.  Entries pinned by a digest or by a tag
that is neither empty nor "latest" appear in the output unchanged at their
position; every other entry appears with its tag replaced by the highest
available semver tag; and a failure on any entry aborts the whole batch with
an error naming the failing repository. -/
theorem c8_resolvePluginRefs_batch
    (lister : String → Except String (List String)) (plugins : List PluginReference) :
    (∀ res, resolvePluginRefs lister plugins = .ok res →
      res.length = plugins.length ∧
      ∀ (i : Nat) (p : PluginReference), plugins[i]? = some p →
        ((p.Digest ≠ "" ∨ (p.Tag ≠ "" ∧ p.Tag ≠ "latest")) → res[i]? = some p) ∧
        (p.Digest = "" ∧ (p.Tag = "" ∨ p.Tag = "latest") →
          ∃ tag, resolveLatestTagForRepo lister p.Repository = .ok tag ∧
            res[i]? = some { p with Tag := tag })) ∧
    (∀ e, resolvePluginRefs lister plugins = .error e →
      ∃ p, p ∈ plugins ∧ p.Digest = "" ∧ (p.Tag = "" ∨ p.Tag = "latest") ∧
        ∃ e', resolveLatestTagForRepo lister p.Repository = .error e' ∧
          e = "resolving plugin " ++ p.Repository ++ ": " ++ e') := by
  induction plugins with
  | nil =>
    constructor
    · intro res hok
      simp only [resolvePluginRefs, Except.ok.injEq] at hok
      subst hok
      exact ⟨rfl, fun i p hp => by simp at hp⟩
    · intro e herr
      simp [resolvePluginRefs] at herr
  | cons p ps ih =>
    have hpass : ∀ (hcond : p.Digest ≠ "" ∨ (p.Tag ≠ "" ∧ p.Tag ≠ "latest")),
        resolvePluginRefs lister (p :: ps) =
          (resolvePluginRefs lister ps).map (p :: ·) := by
      intro hcond
      simp only [resolvePluginRefs]
      rcases hcond with hd | ht
      · rw [if_pos hd]
      · by_cases hd : p.Digest ≠ ""
        · rw [if_pos hd]
        · rw [if_neg hd, if_pos ht]
    by_cases hcond : p.Digest ≠ "" ∨ (p.Tag ≠ "" ∧ p.Tag ≠ "latest")
    · rw [hpass hcond]
      cases hrec : resolvePluginRefs lister ps with
      | error e0 =>
        constructor
        · intro res hok
          simp [Except.map] at hok
        · intro e herr
          simp only [Except.map, Except.error.injEq] at herr
          subst herr
          obtain ⟨q, hq, rest⟩ := ih.2 e0 hrec
          exact ⟨q, List.mem_cons_of_mem _ hq, rest⟩
      | ok res' =>
        constructor
        · intro res hok
          simp only [Except.map, Except.ok.injEq] at hok
          subst hok
          obtain ⟨hlen, hidx⟩ := ih.1 res' hrec
          refine ⟨by simp [hlen], ?_⟩
          intro i q hq
          cases i with
          | zero =>
            simp only [List.getElem?_cons_zero, Option.some.injEq] at hq
            subst hq
            constructor
            · intro _
              simp
            · intro ⟨hd0, ht0⟩
              rcases hcond with hd | ht
              · exact absurd hd0 hd
              · rcases ht0 with h | h
                · exact absurd h ht.1
                · exact absurd h ht.2
          | succ j =>
            simp only [List.getElem?_cons_succ] at hq ⊢
            exact hidx j q hq
        · intro e herr
          simp [Except.map] at herr
    · have hd : p.Digest = "" := by
        by_contra hne
        exact hcond (.inl hne)
      have ht : p.Tag = "" ∨ p.Tag = "latest" := by
        rcases eq_or_ne p.Tag "" with h | h
        · exact .inl h
        · rcases eq_or_ne p.Tag "latest" with h' | h'
          · exact .inr h'
          · exact absurd (.inr ⟨h, h'⟩) hcond
      have hstep : resolvePluginRefs lister (p :: ps) =
          match resolveLatestTagForRepo lister p.Repository with
          | .error e => .error ("resolving plugin " ++ p.Repository ++ ": " ++ e)
          | .ok tag => (resolvePluginRefs lister ps).map ({ p with Tag := tag } :: ·) := by
        simp only [resolvePluginRefs]
        rw [if_neg (by simpa using hd), if_neg (by
          intro hcon
          exact hcond (.inr hcon))]
      rw [hstep]
      cases hres : resolveLatestTagForRepo lister p.Repository with
      | error e0 =>
        constructor
        · intro res hok
          simp at hok
        · intro e herr
          simp only [Except.error.injEq] at herr
          subst herr
          exact ⟨p, List.mem_cons_self _ _, hd, ht, e0, hres, rfl⟩
      | ok tag =>
        cases hrec : resolvePluginRefs lister ps with
        | error e0 =>
          constructor
          · intro res hok
            simp [Except.map] at hok
          · intro e herr
            simp only [Except.map, Except.error.injEq] at herr
            subst herr
            obtain ⟨q, hq, rest⟩ := ih.2 e0 hrec
            exact ⟨q, List.mem_cons_of_mem _ hq, rest⟩
        | ok res' =>
          constructor
          · intro res hok
            simp only [Except.map, Except.ok.injEq] at hok
            subst hok
            obtain ⟨hlen, hidx⟩ := ih.1 res' hrec
            refine ⟨by simp [hlen], ?_⟩
            intro i q hq
            cases i with
            | zero =>
              simp only [List.getElem?_cons_zero, Option.some.injEq] at hq
              subst hq
              constructor
              · intro hcon
                exact absurd hcon hcond
              · intro _
                exact ⟨tag, hres, by simp⟩
            | succ j =>
              simp only [List.getElem?_cons_succ] at hq ⊢
              exact hidx j q hq
          · intro e herr
            simp [Except.map] at herr

/-- Witness for C8: a three-entry batch where the "latest" entry gets the
highest tag, the pinned entries pass through unchanged, plus a failing
batch whose error names the failing repository. -/
theorem c8_resolvePluginRefs_batch_witness :
    (resolvePluginRefs
        (fun r => if r = "repo/a" then .ok ["v1.0.0", "v2.0.0"] else .error "nf")
        [⟨"repo/a", "latest", ""⟩, ⟨"repo/b", "v0.1.0", ""⟩] =
      .ok [⟨"repo/a", "v2.0.0", ""⟩, ⟨"repo/b", "v0.1.0", ""⟩]) ∧
    [(⟨"repo/a", "v2.0.0", ""⟩ : PluginReference), ⟨"repo/b", "v0.1.0", ""⟩][1]? =
      some (⟨"repo/b", "v0.1.0", ""⟩ : PluginReference) := by
  have hok : resolvePluginRefs
      (fun r => if r = "repo/a" then .ok ["v1.0.0", "v2.0.0"] else .error "nf")
      [⟨"repo/a", "latest", ""⟩, ⟨"repo/b", "v0.1.0", ""⟩] =
      .ok [⟨"repo/a", "v2.0.0", ""⟩, ⟨"repo/b", "v0.1.0", ""⟩] := by rfl
  have h := ((c8_resolvePluginRefs_batch
      (fun r => if r = "repo/a" then .ok ["v1.0.0", "v2.0.0"] else .error "nf")
      [⟨"repo/a", "latest", ""⟩, ⟨"repo/b", "v0.1.0", ""⟩]).1 _ hok).2 1
      ⟨"repo/b", "v0.1.0", ""⟩ (by decide)
  exact ⟨hok, h.1 (.inr ⟨by decide, by decide⟩)⟩

/-! ## Theorems: the digest cache (C9) -/

theorem lookupFs_insert_self (p : String) (n : FsNode) (fs : Fs) :
    lookupFs (insertFs p n fs) p = some n := by
  unfold lookupFs insertFs
  rw [List.find?_cons_of_pos _ (by simp)]
  rfl

/-- C9: `IsFresh` (`IsCached`) is true exactly when a cache record exists in
the directory and its stored digest equals the queried one; after `Write`
(`WriteCacheEntry`) of a record with digest D, `IsCached dir D` holds and
`IsCached dir D'` fails for every other digest D'. -/
theorem c9_isCached_iff_digest_matches (dir digest : String) (fs : Fs) :
    (IsCached dir digest fs = true ↔
      ∃ e, ReadCacheEntry dir fs = .ok e ∧ e.Digest = digest) ∧
    ∀ (entry : CacheEntry) (now : Nat),
      IsCached dir entry.Digest (WriteCacheEntry dir entry now fs) = true ∧
      ∀ D', D' ≠ entry.Digest →
        IsCached dir D' (WriteCacheEntry dir entry now fs) = false := by
  constructor
  · unfold IsCached
    cases hr : ReadCacheEntry dir fs with
    | ok e =>
      simp only [decide_eq_true_eq]
      constructor
      · intro he
        exact ⟨e, rfl, he⟩
      · intro ⟨e', he', hd⟩
        cases he'
        exact hd
    | error msg =>
      simp only [Bool.false_eq_true, false_iff]
      intro ⟨e', he', _⟩
      exact Except.noConfusion he'
  · intro entry now
    have hread : ReadCacheEntry dir (WriteCacheEntry dir entry now fs) =
        .ok { entry with PulledAt := now } := by
      unfold ReadCacheEntry WriteCacheEntry
      rw [lookupFs_insert_self]
    constructor
    · unfold IsCached
      rw [hread]
      simp
    · intro D' hne
      unfold IsCached
      rw [hread]
      exact decide_eq_false fun he => hne (he ▸ rfl)

/-- Witness for C9: a concrete write followed by matching and non-matching
freshness checks. -/
theorem c9_isCached_iff_digest_matches_witness :
    IsCached "/d" "sha256:a"
      (WriteCacheEntry "/d" ⟨"sha256:a", "r", 0, "cfg", []⟩ 7 []) = true ∧
    IsCached "/d" "sha256:b"
      (WriteCacheEntry "/d" ⟨"sha256:a", "r", 0, "cfg", []⟩ 7 []) = false := by
  have h := (c9_isCached_iff_digest_matches "/d" "sha256:a" []).2
    ⟨"sha256:a", "r", 0, "cfg", []⟩ 7
  exact ⟨h.1, h.2 "sha256:b" (by decide)⟩

/-! ## Theorems: the dependency resolver (C2, C7) -/

theorem append_colon_ne_empty (a b : String) : a ++ ":" ++ b ≠ "" := by
  intro h
  have hl := congrArg String.length h
  rw [String.length_append, String.length_append] at hl
  simp at hl
  exact absurd hl.1.2 (by decide)

theorem resolveLatestSemver_ok_shape {lister : String → Except String (List String)}
    {repo r : String} (h : resolveLatestSemver lister repo = .ok r) :
    ∃ tag, r = repo ++ ":" ++ tag := by
  unfold resolveLatestSemver at h
  cases hr : resolveLatestTagForRepo lister repo with
  | error e => rw [hr] at h; exact Except.noConfusion h
  | ok tag =>
    rw [hr] at h
    cases h
    exact ⟨tag, rfl⟩

theorem resolveArtifactRef_ok_ne_empty {lister : String → Except String (List String)}
    {ref base r : String} (h : resolveArtifactRef lister ref base = .ok r) :
    r ≠ "" := by
  simp only [resolveArtifactRef] at h
  by_cases hne : goTrimSpace ref = ""
  · rw [if_pos hne] at h
    exact Except.noConfusion h
  · rw [if_neg hne] at h
    by_cases hsep : containsCh (goTrimSpace ref) '/' = true
    · rw [if_pos hsep] at h
      by_cases htod : (!hasTagOrDigest (goTrimSpace ref)) = true
      · rw [if_pos htod] at h
        obtain ⟨tag, rfl⟩ := resolveLatestSemver_ok_shape h
        exact append_colon_ne_empty _ _
      · rw [if_neg htod] at h
        by_cases hd : hasDigest (goTrimSpace ref) = true
        · rw [if_pos hd] at h
          cases h
          exact hne
        · rw [if_neg hd] at h
          by_cases hl : extractTag (goTrimSpace ref) ≠ "latest"
          · rw [if_pos hl] at h
            cases h
            exact hne
          · rw [if_neg hl] at h
            obtain ⟨tag, rfl⟩ := resolveLatestSemver_ok_shape h
            exact append_colon_ne_empty _ _
    · rw [if_neg hsep] at h
      by_cases hc : (SplitNameTag (goTrimSpace ref)).2 ≠ "" ∧
          (SplitNameTag (goTrimSpace ref)).2 ≠ "latest"
      · rw [if_pos hc] at h
        cases h
        exact append_colon_ne_empty _ _
      · rw [if_neg hc] at h
        obtain ⟨tag, rfl⟩ := resolveLatestSemver_ok_shape h
        exact append_colon_ne_empty _ _

theorem describePlugin_ok_ref_ne {lister : String → Except String (List String)}
    {fetchP : String → Except String (String × Plugin)} {ref : String}
    {dp : DescribedPlugin} (h : DescribePlugin lister fetchP ref = .ok dp) :
    dp.info.Ref ≠ "" := by
  unfold DescribePlugin at h
  split at h
  next e heq => exact Except.noConfusion h
  next resolved heq =>
    split at h
    next e heq2 => exact Except.noConfusion h
    next dm heq2 =>
      cases h
      exact resolveArtifactRef_ok_ne_empty heq

section DepFold

variable (dT : String → Except String DescribedToolchain)
variable (dP : String → Except String DescribedPlugin)
variable (p : Personality)

theorem applyDepTask_warns (st : DepState) (t : DepTask) :
    (applyDepTask dT dP p st t).warns = st.warns ++ (msgOf dT dP p t).toList := by
  cases t with
  | toolchain =>
    unfold applyDepTask msgOf
    cases dT p.Toolchain.Ref <;> simp
  | plugin i =>
    unfold applyDepTask msgOf pluginFailMsg
    cases hr : p.Plugins[i]? with
    | none => simp [hr]
    | some r => cases hd : dP r.Ref <;> simp [hr, hd]

theorem applyDepTask_arr_length (st : DepState) (t : DepTask) :
    (applyDepTask dT dP p st t).arr.length = st.arr.length := by
  cases t with
  | toolchain =>
    unfold applyDepTask
    cases dT p.Toolchain.Ref <;> simp
  | plugin i =>
    unfold applyDepTask
    cases hr : p.Plugins[i]? with
    | none => simp [hr]
    | some r => cases hd : dP r.Ref <;> simp [hr, hd]

theorem applyDepTask_tc_of_ne (st : DepState) (t : DepTask)
    (ht : t ≠ .toolchain) : (applyDepTask dT dP p st t).tc = st.tc := by
  cases t with
  | toolchain => exact absurd rfl ht
  | plugin i =>
    unfold applyDepTask
    cases hr : p.Plugins[i]? with
    | none => simp [hr]
    | some r => cases hd : dP r.Ref <;> simp [hr, hd]

theorem foldl_dep_warns (L : List DepTask) (st : DepState) :
    (L.foldl (applyDepTask dT dP p) st).warns =
      st.warns ++ L.filterMap (msgOf dT dP p) := by
  induction L generalizing st with
  | nil => simp
  | cons t L ih =>
    rw [List.foldl_cons, ih, applyDepTask_warns, List.filterMap_cons]
    cases msgOf dT dP p t <;> simp

theorem foldl_dep_arr_length (L : List DepTask) (st : DepState) :
    (L.foldl (applyDepTask dT dP p) st).arr.length = st.arr.length := by
  induction L generalizing st with
  | nil => rfl
  | cons t L ih => rw [List.foldl_cons, ih, applyDepTask_arr_length]

theorem foldl_dep_tc_of_not_mem (L : List DepTask) (st : DepState)
    (h : DepTask.toolchain ∉ L) :
    (L.foldl (applyDepTask dT dP p) st).tc = st.tc := by
  induction L generalizing st with
  | nil => rfl
  | cons t L ih =>
    rw [List.foldl_cons, ih _ (fun hm => h (List.mem_cons_of_mem t hm)),
      applyDepTask_tc_of_ne _ _ _ _ _ (fun he => h (he ▸ List.mem_cons_self t L))]

theorem foldl_dep_tc_of_mem (L : List DepTask) (st : DepState)
    (hnd : L.Nodup) (hm : DepTask.toolchain ∈ L) :
    (L.foldl (applyDepTask dT dP p) st).tc =
      match dT p.Toolchain.Ref with
      | .ok tc => some tc
      | .error _ => st.tc := by
  induction L generalizing st with
  | nil => exact absurd hm (List.not_mem_nil _)
  | cons t L ih =>
    rcases List.nodup_cons.mp hnd with ⟨hnin, hnd'⟩
    by_cases ht : t = DepTask.toolchain
    · subst ht
      rw [List.foldl_cons, foldl_dep_tc_of_not_mem _ _ _ _ _ hnin]
      unfold applyDepTask
      cases dT p.Toolchain.Ref <;> simp
    · rcases List.mem_cons.mp hm with he | hm'
      · exact absurd he.symm ht
      · rw [List.foldl_cons, ih _ hnd' hm', applyDepTask_tc_of_ne _ _ _ _ _ ht]

theorem foldl_dep_arr_getElem (L : List DepTask) (st : DepState)
    (hnd : L.Nodup) (j : Nat) (hj : j < st.arr.length) :
    (L.foldl (applyDepTask dT dP p) st).arr[j]? =
      if DepTask.plugin j ∈ L then (valOf dP p j).elim st.arr[j]? some
      else st.arr[j]? := by
  induction L generalizing st with
  | nil => simp
  | cons t L ih =>
    rcases List.nodup_cons.mp hnd with ⟨hnin, hnd'⟩
    rw [List.foldl_cons]
    have hlen : (applyDepTask dT dP p st t).arr.length = st.arr.length :=
      applyDepTask_arr_length dT dP p st t
    by_cases ht : t = DepTask.plugin j
    · subst ht
      have hnm : DepTask.plugin j ∉ L := hnin
      rw [ih _ hnd' (hlen ▸ hj), if_neg hnm,
        if_pos (List.mem_cons_self _ _)]
      unfold applyDepTask valOf
      cases hr : p.Plugins[j]? with
      | none => simp [hr, Option.elim]
      | some r =>
        cases hd : dP r.Ref with
        | error e => simp [hr, hd, Except.toOption, Option.elim]
        | ok dp =>
          simp only [hr, hd, Except.toOption]
          rw [List.getElem?_set]
          simp [hj, hd, Except.toOption, Option.elim]
    · have hmem : DepTask.plugin j ∈ t :: L ↔ DepTask.plugin j ∈ L := by
        constructor
        · intro hm
          rcases List.mem_cons.mp hm with he | hm'
          · exact absurd he.symm ht
          · exact hm'
        · exact List.mem_cons_of_mem t
      rw [ih _ hnd' (hlen ▸ hj)]
      have harr : (applyDepTask dT dP p st t).arr[j]? = st.arr[j]? := by
        cases t with
        | toolchain =>
          unfold applyDepTask
          cases dT p.Toolchain.Ref <;> simp
        | plugin i =>
          have hij : i ≠ j := fun he => ht (he ▸ rfl)
          unfold applyDepTask
          cases hri : p.Plugins[i]? with
          | none => simp [hri]
          | some r =>
            cases hdi : dP r.Ref with
            | error e => simp [hri, hdi]
            | ok dp =>
              simp only [hri, hdi]
              rw [List.getElem?_set]
              simp [hij]
      by_cases hmL : DepTask.plugin j ∈ L
      · rw [if_pos hmL, if_pos (hmem.mpr hmL), harr]
      · rw [if_neg hmL, if_neg (fun hm => hmL (hmem.mp hm)), harr]

end DepFold

theorem depTasks_nodup (p : Personality) : (depTasks p).Nodup := by
  have hmap : ((List.range p.Plugins.length).map DepTask.plugin).Nodup :=
    (List.nodup_range _).map fun a b h => by injection h
  have hnm : DepTask.toolchain ∉ (List.range p.Plugins.length).map DepTask.plugin := by
    simp [List.mem_map]
  unfold depTasks
  by_cases hd : p.Toolchain.Repository ≠ ""
  · rw [if_pos hd]
    exact List.nodup_cons.mpr ⟨hnm, hmap⟩
  · rw [if_neg hd]
    simpa using hmap

theorem mem_depTasks_plugin (p : Personality) (j : Nat) :
    DepTask.plugin j ∈ depTasks p ↔ j < p.Plugins.length := by
  unfold depTasks
  by_cases hd : p.Toolchain.Repository ≠ "" <;> simp [hd]

theorem mem_depTasks_toolchain (p : Personality) :
    DepTask.toolchain ∈ depTasks p ↔ p.Toolchain.Repository ≠ "" := by
  unfold depTasks
  by_cases hd : p.Toolchain.Repository ≠ "" <;> simp [hd]

theorem range_filterMap_getElem {α β : Type _} (l : List α) (f : α → Option β) :
    ((List.range l.length).filterMap fun i => (l[i]?).bind f) = l.filterMap f := by
  induction l with
  | nil => rfl
  | cons a l ih =>
    rw [List.length_cons, List.range_succ_eq_map, List.filterMap_cons,
      List.filterMap_map]
    have hfun : ((fun i => ((a :: l)[i]?).bind f) ∘ Nat.succ) =
        fun i => (l[i]?).bind f := funext fun i => by simp
    rw [hfun, ih, List.filterMap_cons]
    simp only [List.getElem?_cons_zero, Option.some_bind]

theorem depTasks_filterMap_msgOf (dT : String → Except String DescribedToolchain)
    (dP : String → Except String DescribedPlugin) (p : Personality) :
    (depTasks p).filterMap (msgOf dT dP p) = depFailMsgs dT dP p := by
  unfold depTasks depFailMsgs
  rw [List.filterMap_append, List.filterMap_map]
  have hplug : ((List.range p.Plugins.length).filterMap
      (msgOf dT dP p ∘ DepTask.plugin)) =
      p.Plugins.filterMap (pluginFailMsg dP) := by
    rw [show (msgOf dT dP p ∘ DepTask.plugin) = fun i =>
        (p.Plugins[i]?).bind (pluginFailMsg dP) from funext fun i => rfl]
    exact range_filterMap_getElem p.Plugins (pluginFailMsg dP)
  rw [hplug]
  congr 1
  by_cases hd : p.Toolchain.Repository ≠ ""
  · rw [if_pos hd, if_pos hd]
    cases h : dT p.Toolchain.Ref <;> simp [msgOf, h]
  · rw [if_neg hd, if_neg hd]
    rfl

theorem filter_map_eq_filterMap {α β : Type _} (l : List α) (g : α → Option β)
    (q : β → Bool) (z : β) (hsome : ∀ a b, g a = some b → q b = true)
    (hz : q z = false) :
    (l.map fun a => (g a).getD z).filter q = l.filterMap g := by
  induction l with
  | nil => rfl
  | cons a l ih =>
    rw [List.map_cons, List.filter_cons, List.filterMap_cons]
    cases hg : g a with
    | none => simp [hg, hz, ih]
    | some b => simp [hg, hsome a b hg, ih]

theorem toOption_eq_some_iff {ε α : Type _} {e : Except ε α} {a : α} :
    e.toOption = some a ↔ e = .ok a := by
  cases e <;> simp [Except.toOption]

/-- The slice of plugin slots after all tasks ran, independent of the
completion order. -/
theorem foldl_dep_arr_eq (dT : String → Except String DescribedToolchain)
    (dP : String → Except String DescribedPlugin) (p : Personality)
    (σ : List DepTask) (hperm : σ.Perm (depTasks p)) :
    (σ.foldl (applyDepTask dT dP p)
      ⟨none, List.replicate p.Plugins.length DescribedPlugin.zero, []⟩).arr =
      canonicalArr dP p := by
  have hnd : σ.Nodup := (hperm.nodup_iff).mpr (depTasks_nodup p)
  have hlen : (σ.foldl (applyDepTask dT dP p)
      ⟨none, List.replicate p.Plugins.length DescribedPlugin.zero, []⟩).arr.length =
      p.Plugins.length := by
    rw [foldl_dep_arr_length]
    simp
  apply List.ext_getElem?
  intro j
  by_cases hj : j < p.Plugins.length
  · rw [foldl_dep_arr_getElem dT dP p σ _ hnd j (by simpa using hj)]
    rw [if_pos (hperm.mem_iff.mpr ((mem_depTasks_plugin p j).mpr hj))]
    have hcan : (canonicalArr dP p)[j]? =
        some ((valOf dP p j).getD DescribedPlugin.zero) := by
      unfold canonicalArr
      rw [List.getElem?_map]
      simp [List.getElem?_range hj]
    rw [hcan]
    cases valOf dP p j with
    | none => simp [Option.elim, List.getElem?_replicate, hj]
    | some dp => simp [Option.elim]
  · rw [List.getElem?_eq_none (by simpa [hlen] using Nat.le_of_not_lt hj),
      List.getElem?_eq_none]
    unfold canonicalArr
    simp [Nat.le_of_not_lt hj]

theorem dep_plugin_count (dP : String → Except String DescribedPlugin)
    (l : List PluginReference) :
    (l.filterMap (pluginFailMsg dP)).length +
      (l.filterMap fun r => (dP r.Ref).toOption).length = l.length := by
  induction l with
  | nil => rfl
  | cons r l ih =>
    rw [List.filterMap_cons, List.filterMap_cons]
    cases hd : dP r.Ref with
    | error e =>
      simp [pluginFailMsg, hd, Except.toOption] at ih ⊢
      omega
    | ok dp =>
      simp [pluginFailMsg, hd, Except.toOption] at ih ⊢
      omega

theorem dep_totals (dT : String → Except String DescribedToolchain)
    (dP : String → Except String DescribedPlugin) (p : Personality) :
    (depFailMsgs dT dP p).length + (depSuccesses dP p).length +
      (depToolchainResult dT p).elim 0 (fun _ => 1) =
      (if p.Toolchain.Repository ≠ "" then 1 else 0) + p.Plugins.length := by
  have hpc := dep_plugin_count dP p.Plugins
  unfold depFailMsgs depSuccesses depToolchainResult
  rw [List.length_append]
  by_cases hd : p.Toolchain.Repository ≠ ""
  · rw [if_pos hd, if_pos hd, if_pos hd]
    cases ht : dT p.Toolchain.Ref with
    | error e =>
      simp [ht, Except.toOption, Option.elim] at hpc ⊢
      omega
    | ok tc =>
      simp [ht, Except.toOption, Option.elim] at hpc ⊢
      omega
  · rw [if_neg hd, if_neg hd, if_neg hd]
    simp [Option.elim] at hpc ⊢
    omega

theorem deps_plugins_canonical
    (lister : String → Except String (List String))
    (fetchT : String → Except String (String × Toolchain))
    (fetchP : String → Except String (String × Plugin))
    (p : Personality) (σ : List DepTask)
    (hperm : σ.Perm (depTasks p)) :
    (ResolvePersonalityDeps (DescribeToolchain lister fetchT)
        (DescribePlugin lister fetchP) p σ).Plugins =
      depSuccesses (DescribePlugin lister fetchP) p := by
  unfold ResolvePersonalityDeps
  simp only
  rw [foldl_dep_arr_eq _ _ p σ hperm]
  unfold canonicalArr
  rw [filter_map_eq_filterMap (List.range p.Plugins.length)
    (valOf (DescribePlugin lister fetchP) p) nonzeroDP DescribedPlugin.zero
    (fun j dp hv => by
      rcases Option.bind_eq_some.mp hv with ⟨r, _, htop⟩
      have hok := toOption_eq_some_iff.mp htop
      have hne := describePlugin_ok_ref_ne hok
      unfold nonzeroDP
      exact decide_eq_true (.inr hne))
    (by decide)]
  exact range_filterMap_getElem p.Plugins fun r =>
    ((DescribePlugin lister fetchP) r.Ref).toOption

/-- C2: dependency resolution tolerates partial failure.  With the network
modelled as oracles and the task completions folded over any permutation `σ`
of the declared tasks, the result (the embedding is total: every task
returns nil to the errgroup, so absent a context cancellation the call
returns no error) has: one warning of the form `"<kind> <ref>: <error>"` per
failing dependency and nothing else (as a multiset), the successfully
described plugins in declaration order, the toolchain exactly when declared
and described, and every declared dependency accounted for exactly once as a
success or a warning. -/
theorem c2_resolvePersonalityDeps_partial_failure
    (lister : String → Except String (List String))
    (fetchT : String → Except String (String × Toolchain))
    (fetchP : String → Except String (String × Plugin))
    (p : Personality) (σ : List DepTask)
    (hperm : σ.Perm (depTasks p)) :
    (ResolvePersonalityDeps (DescribeToolchain lister fetchT)
        (DescribePlugin lister fetchP) p σ).Warnings.Perm
      (depFailMsgs (DescribeToolchain lister fetchT) (DescribePlugin lister fetchP) p) ∧
    (ResolvePersonalityDeps (DescribeToolchain lister fetchT)
        (DescribePlugin lister fetchP) p σ).Plugins =
      depSuccesses (DescribePlugin lister fetchP) p ∧
    (ResolvePersonalityDeps (DescribeToolchain lister fetchT)
        (DescribePlugin lister fetchP) p σ).Toolchain =
      depToolchainResult (DescribeToolchain lister fetchT) p ∧
    (ResolvePersonalityDeps (DescribeToolchain lister fetchT)
          (DescribePlugin lister fetchP) p σ).Warnings.length +
        (ResolvePersonalityDeps (DescribeToolchain lister fetchT)
          (DescribePlugin lister fetchP) p σ).Plugins.length +
        (ResolvePersonalityDeps (DescribeToolchain lister fetchT)
          (DescribePlugin lister fetchP) p σ).Toolchain.elim 0 (fun _ => 1) =
      (if p.Toolchain.Repository ≠ "" then 1 else 0) + p.Plugins.length := by
  have hnd : σ.Nodup := hperm.nodup_iff.mpr (depTasks_nodup p)
  have hwarn : (ResolvePersonalityDeps (DescribeToolchain lister fetchT)
      (DescribePlugin lister fetchP) p σ).Warnings.Perm
      (depFailMsgs (DescribeToolchain lister fetchT) (DescribePlugin lister fetchP) p) := by
    unfold ResolvePersonalityDeps
    simp only [foldl_dep_warns, List.nil_append]
    rw [← depTasks_filterMap_msgOf]
    exact hperm.filterMap _
  have hplug : (ResolvePersonalityDeps (DescribeToolchain lister fetchT)
      (DescribePlugin lister fetchP) p σ).Plugins =
      depSuccesses (DescribePlugin lister fetchP) p :=
    deps_plugins_canonical lister fetchT fetchP p σ hperm
  have htc : (ResolvePersonalityDeps (DescribeToolchain lister fetchT)
      (DescribePlugin lister fetchP) p σ).Toolchain =
      depToolchainResult (DescribeToolchain lister fetchT) p := by
    unfold ResolvePersonalityDeps depToolchainResult
    simp only
    by_cases hd : p.Toolchain.Repository ≠ ""
    · rw [if_pos hd, foldl_dep_tc_of_mem _ _ p σ _ hnd
        (hperm.mem_iff.mpr ((mem_depTasks_toolchain p).mpr hd))]
      cases ht : DescribeToolchain lister fetchT p.Toolchain.Ref <;>
        simp [Except.toOption]
    · rw [if_neg hd, foldl_dep_tc_of_not_mem _ _ p σ _
        (fun hm => hd ((mem_depTasks_toolchain p).mp (hperm.mem_iff.mp hm)))]
  refine ⟨hwarn, hplug, htc, ?_⟩
  rw [hwarn.length_eq, hplug, htc]
  exact dep_totals _ _ p

/-- Witness for C2: two declared plugins, no toolchain, one plugin pointing
at a nonexistent artifact, completions arriving in reverse order — no
error, exactly one warning, exactly one resolved plugin (the valid one). -/
theorem c2_resolvePersonalityDeps_partial_failure_witness :
    [DepTask.plugin 1, DepTask.plugin 0].Perm
      (depTasks ⟨"sre", "", none, "", "", "", [], ⟨"", "", ""⟩,
        [⟨"reg.io/p/bad", "v0.5.0", ""⟩, ⟨"reg.io/p/ok", "v1.0.0", ""⟩], ""⟩) ∧
    (ResolvePersonalityDeps
        (DescribeToolchain (fun _ => .error "nf") (fun _ => .error "nf"))
        (DescribePlugin (fun _ => .error "nf") (fun r =>
          if r = "reg.io/p/ok:v1.0.0" then
            .ok ("sha256:1", ⟨"gs-ok", "", "", none, "", "", "", [], [], [], [], false, [], []⟩)
          else .error "not found"))
        ⟨"sre", "", none, "", "", "", [], ⟨"", "", ""⟩,
          [⟨"reg.io/p/bad", "v0.5.0", ""⟩, ⟨"reg.io/p/ok", "v1.0.0", ""⟩], ""⟩
        [DepTask.plugin 1, DepTask.plugin 0]).Warnings.Perm
      (depFailMsgs
        (DescribeToolchain (fun _ => .error "nf") (fun _ => .error "nf"))
        (DescribePlugin (fun _ => .error "nf") (fun r =>
          if r = "reg.io/p/ok:v1.0.0" then
            .ok ("sha256:1", ⟨"gs-ok", "", "", none, "", "", "", [], [], [], [], false, [], []⟩)
          else .error "not found"))
        ⟨"sre", "", none, "", "", "", [], ⟨"", "", ""⟩,
          [⟨"reg.io/p/bad", "v0.5.0", ""⟩, ⟨"reg.io/p/ok", "v1.0.0", ""⟩], ""⟩) ∧
    (ResolvePersonalityDeps
        (DescribeToolchain (fun _ => .error "nf") (fun _ => .error "nf"))
        (DescribePlugin (fun _ => .error "nf") (fun r =>
          if r = "reg.io/p/ok:v1.0.0" then
            .ok ("sha256:1", ⟨"gs-ok", "", "", none, "", "", "", [], [], [], [], false, [], []⟩)
          else .error "not found"))
        ⟨"sre", "", none, "", "", "", [], ⟨"", "", ""⟩,
          [⟨"reg.io/p/bad", "v0.5.0", ""⟩, ⟨"reg.io/p/ok", "v1.0.0", ""⟩], ""⟩
        [DepTask.plugin 1, DepTask.plugin 0]).Warnings.length = 1 ∧
    (ResolvePersonalityDeps
        (DescribeToolchain (fun _ => .error "nf") (fun _ => .error "nf"))
        (DescribePlugin (fun _ => .error "nf") (fun r =>
          if r = "reg.io/p/ok:v1.0.0" then
            .ok ("sha256:1", ⟨"gs-ok", "", "", none, "", "", "", [], [], [], [], false, [], []⟩)
          else .error "not found"))
        ⟨"sre", "", none, "", "", "", [], ⟨"", "", ""⟩,
          [⟨"reg.io/p/bad", "v0.5.0", ""⟩, ⟨"reg.io/p/ok", "v1.0.0", ""⟩], ""⟩
        [DepTask.plugin 1, DepTask.plugin 0]).Plugins.length = 1 := by
  have h := c2_resolvePersonalityDeps_partial_failure
    (fun _ => .error "nf") (fun _ => .error "nf")
    (fun r =>
      if r = "reg.io/p/ok:v1.0.0" then
        .ok ("sha256:1", ⟨"gs-ok", "", "", none, "", "", "", [], [], [], [], false, [], []⟩)
      else .error "not found")
    ⟨"sre", "", none, "", "", "", [], ⟨"", "", ""⟩,
      [⟨"reg.io/p/bad", "v0.5.0", ""⟩, ⟨"reg.io/p/ok", "v1.0.0", ""⟩], ""⟩
    [DepTask.plugin 1, DepTask.plugin 0] (by decide)
  exact ⟨by decide, h.1, by decide, by decide⟩

/-- C7: the resolved-plugin list preserves declaration order, regardless of
the order in which the concurrent tasks complete: for any two completion
orders the plugin list is the same, and it equals the declared plugin
sequence restricted (by `filterMap` in declaration order) to the
successfully described entries. -/
theorem c7_resolvePersonalityDeps_plugin_order
    (lister : String → Except String (List String))
    (fetchT : String → Except String (String × Toolchain))
    (fetchP : String → Except String (String × Plugin))
    (p : Personality) (σ σ' : List DepTask)
    (h1 : σ.Perm (depTasks p)) (h2 : σ'.Perm (depTasks p)) :
    (ResolvePersonalityDeps (DescribeToolchain lister fetchT)
        (DescribePlugin lister fetchP) p σ).Plugins =
      p.Plugins.filterMap (fun r => (DescribePlugin lister fetchP r.Ref).toOption) ∧
    (ResolvePersonalityDeps (DescribeToolchain lister fetchT)
        (DescribePlugin lister fetchP) p σ).Plugins =
      (ResolvePersonalityDeps (DescribeToolchain lister fetchT)
        (DescribePlugin lister fetchP) p σ').Plugins := by
  have ha := deps_plugins_canonical lister fetchT fetchP p σ h1
  have hb := deps_plugins_canonical lister fetchT fetchP p σ' h2
  exact ⟨ha, ha.trans hb.symm⟩

/-- Witness for C7: the two reversed completion orders of the C2 scenario
yield the same plugin list, in declaration order. -/
theorem c7_resolvePersonalityDeps_plugin_order_witness :
    (ResolvePersonalityDeps
        (DescribeToolchain (fun _ => .error "nf") (fun _ => .error "nf"))
        (DescribePlugin (fun _ => .error "nf") (fun r =>
          if r = "reg.io/p/ok:v1.0.0" then
            .ok ("sha256:1", ⟨"gs-ok", "", "", none, "", "", "", [], [], [], [], false, [], []⟩)
          else .error "not found"))
        ⟨"sre", "", none, "", "", "", [], ⟨"", "", ""⟩,
          [⟨"reg.io/p/bad", "v0.5.0", ""⟩, ⟨"reg.io/p/ok", "v1.0.0", ""⟩], ""⟩
        [DepTask.plugin 1, DepTask.plugin 0]).Plugins =
      (ResolvePersonalityDeps
        (DescribeToolchain (fun _ => .error "nf") (fun _ => .error "nf"))
        (DescribePlugin (fun _ => .error "nf") (fun r =>
          if r = "reg.io/p/ok:v1.0.0" then
            .ok ("sha256:1", ⟨"gs-ok", "", "", none, "", "", "", [], [], [], [], false, [], []⟩)
          else .error "not found"))
        ⟨"sre", "", none, "", "", "", [], ⟨"", "", ""⟩,
          [⟨"reg.io/p/bad", "v0.5.0", ""⟩, ⟨"reg.io/p/ok", "v1.0.0", ""⟩], ""⟩
        [DepTask.plugin 0, DepTask.plugin 1]).Plugins := by
  exact (c7_resolvePersonalityDeps_plugin_order
    (fun _ => .error "nf") (fun _ => .error "nf")
    (fun r =>
      if r = "reg.io/p/ok:v1.0.0" then
        .ok ("sha256:1", ⟨"gs-ok", "", "", none, "", "", "", [], [], [], [], false, [], []⟩)
      else .error "not found")
    ⟨"sre", "", none, "", "", "", [], ⟨"", "", ""⟩,
      [⟨"reg.io/p/bad", "v0.5.0", ""⟩, ⟨"reg.io/p/ok", "v1.0.0", ""⟩], ""⟩
    [DepTask.plugin 1, DepTask.plugin 0] [DepTask.plugin 0, DepTask.plugin 1]
    (by decide) (by decide)).2

/-! ## Theorems: lexical path machinery (towards C1, C3, C10) -/

theorem splitOnCh_ne_nil (c : Char) (l : List Char) : splitOnCh c l ≠ [] := by
  cases l with
  | nil => simp [splitOnCh]
  | cons x xs =>
    unfold splitOnCh
    by_cases h : x = c
    · simp [h]
    · rw [if_neg h]
      cases splitOnCh c xs <;> simp

theorem not_mem_of_mem_splitOnCh (c : Char) (l : List Char) :
    ∀ p ∈ splitOnCh c l, c ∉ p := by
  induction l with
  | nil =>
    intro p hp
    simp [splitOnCh] at hp
    simp [hp]
  | cons x xs ih =>
    intro p hp
    unfold splitOnCh at hp
    by_cases h : x = c
    · rw [if_pos h] at hp
      rcases List.mem_cons.mp hp with rfl | hp'
      · simp
      · exact ih p hp'
    · rw [if_neg h] at hp
      cases hsp : splitOnCh c xs with
      | nil => exact absurd hsp (splitOnCh_ne_nil c xs)
      | cons q qs =>
        rw [hsp] at hp
        rcases List.mem_cons.mp hp with rfl | hp'
        · intro hm
          rcases List.mem_cons.mp hm with he | hm'
          · exact h he.symm
          · exact ih q (hsp ▸ List.mem_cons_self q qs) hm'
        · exact ih p (hsp ▸ List.mem_cons_of_mem q hp')

theorem splitOnCh_append (c : Char) (a b : List Char) :
    splitOnCh c (a ++ c :: b) = splitOnCh c a ++ splitOnCh c b := by
  induction a with
  | nil => simp [splitOnCh]
  | cons x xs ih =>
    by_cases h : x = c
    · simp only [List.cons_append, splitOnCh, if_pos h, List.append_eq]
      rw [ih]
    · simp only [List.cons_append, splitOnCh, if_neg h, List.append_eq]
      rw [ih]
      cases hsp : splitOnCh c xs with
      | nil => exact absurd hsp (splitOnCh_ne_nil c xs)
      | cons q qs => simp

theorem splitOnCh_no_sep (c : Char) (l : List Char) (h : c ∉ l) :
    splitOnCh c l = [l] := by
  induction l with
  | nil => rfl
  | cons x xs ih =>
    have hx : ¬ (x = c) := fun he => h (he ▸ List.mem_cons_self x xs)
    unfold splitOnCh
    rw [if_neg hx, ih fun hm => h (List.mem_cons_of_mem x hm)]

theorem getLast?_replicate_succ {α : Type _} (k : Nat) (x : α) :
    (List.replicate (k + 1) x).getLast? = some x := by
  induction k with
  | zero => rfl
  | succ n ih =>
    rw [List.replicate_succ, show List.replicate (n + 1) x =
      x :: List.replicate n x from List.replicate_succ x n]
    rw [List.getLast?_cons_cons]
    rw [← List.replicate_succ]
    exact ih

theorem dropLast_append_right {α : Type _} (l₁ l₂ : List α) (h : l₂ ≠ []) :
    (l₁ ++ l₂).dropLast = l₁ ++ l₂.dropLast := by
  induction l₁ with
  | nil => simp
  | cons a l ih =>
    have hne : l ++ l₂ ≠ [] := fun he => h (List.append_eq_nil.mp he).2
    cases hc : l ++ l₂ with
    | nil => exact absurd hc hne
    | cons y ys =>
      rw [List.cons_append, hc, List.dropLast_cons₂, ← hc, ih, List.cons_append]

theorem getLast?_append_right {α : Type _} (l₁ l₂ : List α) (h : l₂ ≠ []) :
    (l₁ ++ l₂).getLast? = l₂.getLast? := by
  induction l₁ with
  | nil => simp
  | cons a l ih =>
    have hne : l ++ l₂ ≠ [] := fun he => h (List.append_eq_nil.mp he).2
    cases hc : l ++ l₂ with
    | nil => exact absurd hc hne
    | cons y ys =>
      rw [List.cons_append, hc, List.getLast?_cons_cons, ← hc, ih]

theorem mem_of_getLast?_eq {α : Type _} {l : List α} {a : α}
    (h : l.getLast? = some a) : a ∈ l := by
  cases l with
  | nil => simp at h
  | cons x xs =>
    rw [List.getLast?_eq_getLast (x :: xs) (by simp)] at h
    cases h
    exact List.getLast_mem _

theorem normParts_nil (rooted : Bool) : NormParts rooted [] := by
  cases rooted with
  | true => intro q hq; exact absurd hq (List.not_mem_nil q)
  | false => exact ⟨0, [], rfl, fun q hq => absurd hq (List.not_mem_nil q)⟩

theorem cleanStep_norm (rooted : Bool) {out : List (List Char)}
    (hout : NormParts rooted out) (p : List Char) (hp : '/' ∉ p) :
    NormParts rooted (cleanStep rooted out p) := by
  unfold cleanStep
  by_cases h1 : p = [] ∨ p = ['.']
  · rw [if_pos h1]; exact hout
  · rw [if_neg h1]
    by_cases h2 : p = ['.', '.']
    · rw [if_pos h2]
      cases rooted with
      | true =>
        by_cases h3 : out ≠ [] ∧ out.getLast? ≠ some ['.', '.']
        · rw [if_pos h3]
          intro q hq
          exact hout q (List.dropLast_sublist out |>.mem hq)
        · rw [if_neg h3, if_pos rfl]
          exact hout
      | false =>
        obtain ⟨k, rest, hout_eq, hrest⟩ := hout
        by_cases h3 : out ≠ [] ∧ out.getLast? ≠ some ['.', '.']
        · rw [if_pos h3]
          cases hr : rest with
          | nil =>
            exfalso
            subst hout_eq
            rw [hr, List.append_nil] at h3
            cases k with
            | zero => exact h3.1 rfl
            | succ n => exact h3.2 (getLast?_replicate_succ n _)
          | cons r rs =>
            refine ⟨k, rest.dropLast, ?_,
              fun q hq => hrest q (List.dropLast_sublist rest |>.mem hq)⟩
            rw [hout_eq, dropLast_append_right _ _ (by simp [hr])]
        · rw [if_neg h3, if_neg (by simp : ¬ ((false : Bool) = true))]
          have hrest_nil : rest = [] := by
            by_contra hne
            apply h3
            constructor
            · simp [hout_eq, hne]
            · rw [hout_eq, getLast?_append_right _ _ hne]
              intro hlast
              exact (hrest _ (mem_of_getLast?_eq hlast)).2.2.1 rfl
          subst hrest_nil
          refine ⟨k + 1, [], ?_, fun q hq => absurd hq (List.not_mem_nil q)⟩
          rw [hout_eq, List.append_nil, List.append_nil, List.replicate_succ']
    · rw [if_neg h2]
      have hgood : goodPart p :=
        ⟨fun he => h1 (.inl he), fun he => h1 (.inr he), h2, hp⟩
      cases rooted with
      | true =>
        intro q hq
        rcases List.mem_append.mp hq with hq' | hq'
        · exact hout q hq'
        · rw [List.mem_singleton.mp hq']; exact hgood
      | false =>
        obtain ⟨k, rest, hout_eq, hrest⟩ := hout
        refine ⟨k, rest ++ [p], by rw [hout_eq, List.append_assoc], ?_⟩
        intro q hq
        rcases List.mem_append.mp hq with hq' | hq'
        · exact hrest q hq'
        · rw [List.mem_singleton.mp hq']; exact hgood

theorem cleanParts_norm (rooted : Bool) (ps : List (List Char))
    (hps : ∀ p ∈ ps, '/' ∉ p) : NormParts rooted (cleanParts rooted ps) := by
  unfold cleanParts
  have hgen : ∀ (qs : List (List Char)), (∀ p ∈ qs, '/' ∉ p) →
      ∀ (out : List (List Char)), NormParts rooted out →
      NormParts rooted (qs.foldl (cleanStep rooted) out) := by
    intro qs
    induction qs with
    | nil => intro _ out hout; simpa using hout
    | cons p qs ih =>
      intro hqs out hout
      rw [List.foldl_cons]
      exact ih (fun q hq => hqs q (List.mem_cons_of_mem p hq)) _
        (cleanStep_norm rooted hout p (hqs p (List.mem_cons_self p qs)))
  exact hgen ps hps [] (normParts_nil rooted)

theorem normParts_mem {rooted : Bool} {qs : List (List Char)}
    (hn : NormParts rooted qs) : ∀ q ∈ qs, q ≠ [] ∧ '/' ∉ q := by
  intro q hq
  cases rooted with
  | true => exact ⟨(hn q hq).1, (hn q hq).2.2.2⟩
  | false =>
    obtain ⟨k, rest, heq, hrest⟩ := hn
    subst heq
    rcases List.mem_append.mp hq with hq' | hq'
    · rw [List.eq_of_mem_replicate hq']
      exact ⟨by simp, by decide⟩
    · exact ⟨(hrest q hq').1, (hrest q hq').2.2.2⟩

theorem normParts_not_dot {rooted : Bool} {qs : List (List Char)}
    (hn : NormParts rooted qs) : ∀ q ∈ qs, q ≠ ['.'] := by
  intro q hq
  cases rooted with
  | true => exact (hn q hq).2.1
  | false =>
    obtain ⟨k, rest, heq, hrest⟩ := hn
    subst heq
    rcases List.mem_append.mp hq with hq' | hq'
    · rw [List.eq_of_mem_replicate hq']
      decide
    · exact (hrest q hq').2.1

theorem joinParts_cons (q : List Char) (qs : List (List Char)) (h : qs ≠ []) :
    joinParts (q :: qs) = q ++ '/' :: joinParts qs := by
  cases qs with
  | nil => exact absurd rfl h
  | cons r rs => rfl

theorem splitOnCh_joinParts (qs : List (List Char)) (hne : qs ≠ [])
    (hq : ∀ q ∈ qs, '/' ∉ q) : splitOnCh '/' (joinParts qs) = qs := by
  induction qs with
  | nil => exact absurd rfl hne
  | cons q qs ih =>
    cases hqs : qs with
    | nil =>
      subst hqs
      exact splitOnCh_no_sep '/' q (hq q (List.mem_cons_self q []))
    | cons r rs =>
      rw [← hqs, joinParts_cons q qs (by simp [hqs]), splitOnCh_append,
        splitOnCh_no_sep '/' q (hq q (List.mem_cons_self q qs)),
        ih (by simp [hqs]) (fun p hp => hq p (List.mem_cons_of_mem q hp))]
      rfl

theorem foldl_cleanStep_good (rooted : Bool) (ps : List (List Char))
    (hps : ∀ p ∈ ps, p ≠ [] ∧ p ≠ ['.'] ∧ p ≠ ['.', '.']) :
    ∀ out, ps.foldl (cleanStep rooted) out = out ++ ps := by
  induction ps with
  | nil => intro out; simp
  | cons p ps ih =>
    intro out
    obtain ⟨h1, h2, h3⟩ := hps p (List.mem_cons_self p ps)
    rw [List.foldl_cons, show cleanStep rooted out p = out ++ [p] by
      unfold cleanStep
      rw [if_neg (by tauto), if_neg h3],
      ih (fun q hq => hps q (List.mem_cons_of_mem p hq)), List.append_assoc]
    rfl

theorem cleanStep_dots (j : Nat) :
    cleanStep false (List.replicate j ['.', '.']) ['.', '.'] =
      List.replicate (j + 1) ['.', '.'] := by
  unfold cleanStep
  rw [if_neg (by decide), if_pos rfl]
  cases j with
  | zero => rw [if_neg (by simp)]; rfl
  | succ n =>
    rw [if_neg (by
      intro hc
      exact hc.2 (getLast?_replicate_succ n _)),
      if_neg (by simp : ¬ ((false : Bool) = true))]
    simp [List.replicate_succ']

theorem foldl_cleanStep_dots (k : Nat) :
    ∀ j, (List.replicate k ['.', '.']).foldl (cleanStep false)
      (List.replicate j ['.', '.']) = List.replicate (j + k) ['.', '.'] := by
  induction k with
  | zero => intro j; simp
  | succ n ih =>
    intro j
    rw [List.replicate_succ, List.foldl_cons, cleanStep_dots, ih (j + 1)]
    congr 1
    omega

theorem cleanParts_of_norm {rooted : Bool} {qs : List (List Char)}
    (hn : NormParts rooted qs) : cleanParts rooted qs = qs := by
  unfold cleanParts
  cases rooted with
  | true =>
    have h := foldl_cleanStep_good true qs
      (fun p hp => ⟨(hn p hp).1, (hn p hp).2.1, (hn p hp).2.2.1⟩) []
    simpa using h
  | false =>
    obtain ⟨k, rest, heq, hrest⟩ := hn
    subst heq
    have hdots : (List.replicate k ['.', '.']).foldl (cleanStep false) [] =
        List.replicate k ['.', '.'] := by
      have := foldl_cleanStep_dots k 0
      simpa using this
    rw [List.foldl_append, hdots,
      foldl_cleanStep_good false rest
        (fun p hp => ⟨(hrest p hp).1, (hrest p hp).2.1, (hrest p hp).2.2.1⟩)]

theorem renderChars_cons_true (q : List Char) (qs : List (List Char)) :
    renderChars true (q :: qs) = '/' :: joinParts (q :: qs) := rfl

theorem renderChars_cons_false (q : List Char) (qs : List (List Char)) :
    renderChars false (q :: qs) = joinParts (q :: qs) := rfl

theorem splitOnCh_cons_sep (b : List Char) :
    splitOnCh '/' ('/' :: b) = [] :: splitOnCh '/' b := rfl

theorem cleanParts_cons_nil (rooted : Bool) (qs : List (List Char)) :
    cleanParts rooted ([] :: qs) = cleanParts rooted qs := rfl

theorem head_ne_sep_of_goodish {q : List Char} (h1 : q ≠ []) (h2 : '/' ∉ q) :
    isRootedCh (q ++ b) = false := by
  cases q with
  | nil => exact absurd rfl h1
  | cons c cs =>
    rw [List.cons_append]
    simp only [isRootedCh]
    exact decide_eq_false fun he => h2 (he ▸ List.mem_cons_self c cs)

theorem joinParts_head {q : List Char} {qs : List (List Char)} :
    ∃ b, joinParts (q :: qs) = q ++ b := by
  cases qs with
  | nil => exact ⟨[], by simp [joinParts]⟩
  | cons r rs => exact ⟨'/' :: joinParts (r :: rs), joinParts_cons _ _ (by simp)⟩

theorem isRootedCh_render {rooted : Bool} {qs : List (List Char)}
    (hn : NormParts rooted qs) : isRootedCh (renderChars rooted qs) = rooted := by
  cases rooted with
  | true =>
    cases qs with
    | nil => rfl
    | cons q qs' => rw [renderChars_cons_true]; rfl
  | false =>
    cases hq : qs with
    | nil => rfl
    | cons q qs' =>
      rw [renderChars_cons_false]
      have hmem := normParts_mem hn q (hq ▸ List.mem_cons_self q qs')
      obtain ⟨b, hb⟩ := @joinParts_head q qs'
      rw [hb]
      exact head_ne_sep_of_goodish hmem.1 hmem.2

theorem renderChars_ne_nil {rooted : Bool} {qs : List (List Char)}
    (hn : NormParts rooted qs) : renderChars rooted qs ≠ [] := by
  cases hq : qs with
  | nil => cases rooted <;> simp [renderChars]
  | cons q qs' =>
    cases rooted with
    | true => rw [renderChars_cons_true]; simp
    | false =>
      rw [renderChars_cons_false]
      have hmem := normParts_mem hn q (hq ▸ List.mem_cons_self q qs')
      obtain ⟨b, hb⟩ := @joinParts_head q qs'
      rw [hb]
      intro hc
      exact hmem.1 (List.append_eq_nil.mp hc).1

theorem pathParts_render {rooted : Bool} {qs : List (List Char)}
    (hn : NormParts rooted qs) :
    pathParts ⟨renderChars rooted qs⟩ = (rooted, qs) := by
  unfold pathParts
  rw [show (⟨renderChars rooted qs⟩ : String).data = renderChars rooted qs from rfl,
    isRootedCh_render hn]
  refine Prod.ext rfl ?_
  simp only
  cases hq : qs with
  | nil =>
    cases rooted with
    | true => rfl
    | false => rfl
  | cons q qs' =>
    rw [← hq]
    have hjoin : splitOnCh '/' (joinParts qs) = qs :=
      splitOnCh_joinParts qs (by simp [hq]) (fun p hp => (normParts_mem hn p hp).2)
    cases rooted with
    | true =>
      rw [hq, renderChars_cons_true, splitOnCh_cons_sep, ← hq, hjoin,
        cleanParts_cons_nil]
      exact cleanParts_of_norm hn
    | false =>
      rw [hq, renderChars_cons_false, ← hq, hjoin]
      exact cleanParts_of_norm hn

theorem pathParts_clean (s : String) : pathParts (clean s) = pathParts s := by
  unfold clean cleanChars
  by_cases hd : s.data = []
  · rw [if_pos hd]
    unfold pathParts
    rw [hd]
    rfl
  · rw [if_neg hd]
    have hnorm : NormParts (isRootedCh s.data)
        (cleanParts (isRootedCh s.data) (splitOnCh '/' s.data)) :=
      cleanParts_norm _ _ (not_mem_of_mem_splitOnCh '/' s.data)
    rw [pathParts_render hnorm]
    rfl

theorem clean_ne_empty (s : String) : clean s ≠ "" := by
  unfold clean cleanChars
  by_cases hd : s.data = []
  · rw [if_pos hd]
    intro hc
    exact absurd (congrArg String.data hc) (by simp)
  · rw [if_neg hd]
    intro hc
    have hnorm : NormParts (isRootedCh s.data)
        (cleanParts (isRootedCh s.data) (splitOnCh '/' s.data)) :=
      cleanParts_norm _ _ (not_mem_of_mem_splitOnCh '/' s.data)
    exact renderChars_ne_nil hnorm (congrArg String.data hc)

theorem clean_data (s : String) (hd : s.data ≠ []) :
    (clean s).data = renderChars (pathParts s).1 (pathParts s).2 := by
  unfold clean cleanChars
  rw [if_neg hd]
  rfl

theorem pathParts_norm (s : String) :
    NormParts (pathParts s).1 (pathParts s).2 :=
  cleanParts_norm _ _ (not_mem_of_mem_splitOnCh '/' s.data)

theorem normParts_append_good {rooted : Bool} {ps e : List (List Char)}
    (hn : NormParts rooted ps) (he : ∀ q ∈ e, goodPart q) :
    NormParts rooted (ps ++ e) := by
  cases rooted with
  | true =>
    intro q hq
    rcases List.mem_append.mp hq with hq' | hq'
    · exact hn q hq'
    · exact he q hq'
  | false =>
    obtain ⟨k, rest, heq, hrest⟩ := hn
    refine ⟨k, rest ++ e, by rw [heq, List.append_assoc], ?_⟩
    intro q hq
    rcases List.mem_append.mp hq with hq' | hq'
    · exact hrest q hq'
    · exact he q hq'

theorem normParts_take {rooted : Bool} {ps : List (List Char)}
    (hn : NormParts rooted ps) (n : Nat) : NormParts rooted (ps.take n) := by
  cases rooted with
  | true => intro q hq; exact hn q (List.take_subset n ps hq)
  | false =>
    obtain ⟨k, rest, heq, hrest⟩ := hn
    subst heq
    rw [List.take_append_eq_append_take, List.take_replicate]
    exact ⟨min n k, rest.take (n - (List.replicate k ['.', '.']).length),
      rfl, fun q hq => hrest q (List.take_subset _ rest hq)⟩

theorem goIsAbs_clean (s : String) : goIsAbs (clean s) = (pathParts s).1 := by
  unfold goIsAbs
  by_cases hd : s.data = []
  · rw [show (clean s).data = ['.'] from by unfold clean cleanChars; rw [if_pos hd]]
    unfold pathParts
    rw [hd]
    rfl
  · rw [clean_data s hd]
    exact isRootedCh_render (pathParts_norm s)

theorem good_of_not_pre (s : String) (habs : (pathParts s).1 = false)
    (hpre : strHasPre (clean s) ".." = false) :
    ∀ q ∈ (pathParts s).2, goodPart q := by
  have hn := pathParts_norm s
  rw [habs] at hn
  obtain ⟨k, rest, heq, hrest⟩ := hn
  cases hk : k with
  | zero =>
    subst hk
    rw [heq]
    simpa using hrest
  | succ n =>
    exfalso
    have hd : s.data ≠ [] := by
      intro hd0
      have : (pathParts s).2 = [] := by
        unfold pathParts
        rw [hd0]
        rfl
      rw [this] at heq
      subst hk
      exact absurd heq.symm (by simp [List.replicate_succ])
    have hcd : (clean s).data = renderChars false (pathParts s).2 := by
      rw [clean_data s hd, habs]
    rw [heq, hk, List.replicate_succ, List.cons_append] at hcd
    obtain ⟨b, hb⟩ :=
      @joinParts_head ['.', '.'] (List.replicate n ['.', '.'] ++ rest)
    rw [renderChars_cons_false, hb] at hcd
    unfold strHasPre at hpre
    rw [hcd] at hpre
    have : ((".." : String)).data.isPrefixOf (['.', '.'] ++ b) = true := by
      rw [show (".." : String).data = ['.', '.'] from rfl]
      rw [List.isPrefixOf_iff_prefix]
      exact ⟨b, rfl⟩
    rw [this] at hpre
    exact Bool.noConfusion hpre

theorem isRootedCh_append (a b : List Char) (h : a ≠ []) :
    isRootedCh (a ++ b) = isRootedCh a := by
  cases a with
  | nil => exact absurd rfl h
  | cons c cs => rfl

theorem pathParts_nil_of_data_nil (s : String) (hd : s.data = []) :
    pathParts s = (false, []) := by
  unfold pathParts
  rw [hd]
  rfl

theorem clean_data_nil_parts (s : String) (habs : (pathParts s).1 = false)
    (h0 : (pathParts s).2 = []) : (clean s).data = ['.'] := by
  by_cases hd : s.data = []
  · unfold clean cleanChars
    rw [if_pos hd]
  · rw [clean_data s hd, habs, h0]
    rfl

theorem clean_data_cons_parts (s : String) (habs : (pathParts s).1 = false)
    (hne : (pathParts s).2 ≠ []) : (clean s).data = joinParts (pathParts s).2 := by
  have hd : s.data ≠ [] := by
    intro hd0
    rw [pathParts_nil_of_data_nil s hd0] at hne
    exact hne rfl
  rw [clean_data s hd, habs]
  cases hps : (pathParts s).2 with
  | nil => exact absurd hps hne
  | cons q qs => exact renderChars_cons_false q qs

theorem pathParts_goJoin (dest s : String) (habs : (pathParts s).1 = false)
    (hgood : ∀ q ∈ (pathParts s).2, goodPart q) :
    pathParts (goJoin dest (clean s)) =
      ((pathParts dest).1, (pathParts dest).2 ++ (pathParts s).2) := by
  have hbne : clean s ≠ "" := clean_ne_empty s
  unfold goJoin
  by_cases hdest : dest = ""
  · rw [if_pos hdest, if_neg hbne, pathParts_clean, pathParts_clean]
    subst hdest
    rw [show pathParts "" = (false, []) from rfl]
    rw [Prod.ext_iff]
    exact ⟨habs, by simp⟩
  · rw [if_neg hdest, if_neg hbne, pathParts_clean]
    have hdd : dest.data ≠ [] := fun h0 => hdest (by
      cases dest with
      | mk d => cases h0; rfl)
    unfold pathParts
    rw [show (⟨dest.data ++ '/' :: (clean s).data⟩ : String).data =
      dest.data ++ '/' :: (clean s).data from rfl]
    rw [isRootedCh_append dest.data ('/' :: (clean s).data) hdd]
    rw [splitOnCh_append '/' dest.data (clean s).data]
    refine Prod.ext rfl ?_
    show cleanParts (isRootedCh dest.data)
      (splitOnCh '/' dest.data ++ splitOnCh '/' (clean s).data) =
        (pathParts dest).2 ++ (pathParts s).2
    unfold cleanParts
    rw [List.foldl_append]
    show (splitOnCh '/' (clean s).data).foldl (cleanStep (isRootedCh dest.data))
      (pathParts dest).2 = (pathParts dest).2 ++ (pathParts s).2
    cases hps : (pathParts s).2 with
    | nil =>
      rw [clean_data_nil_parts s habs hps]
      rw [show splitOnCh '/' ['.'] = [['.']] from rfl]
      rw [List.foldl_cons,
        show cleanStep (isRootedCh dest.data) (pathParts dest).2 ['.'] =
          (pathParts dest).2 from by
            unfold cleanStep; rw [if_pos (Or.inr rfl)]]
      simp
    | cons q qs =>
      rw [← hps]
      rw [clean_data_cons_parts s habs (by simp [hps])]
      rw [splitOnCh_joinParts _ (by simp [hps]) (fun p hp => (hgood p hp).2.2.2)]
      exact foldl_cleanStep_good _ _
        (fun p hp => ⟨(hgood p hp).1, (hgood p hp).2.1, (hgood p hp).2.2.1⟩) _

theorem withinB_of_parts {dest p : String}
    (h1 : (pathParts p).1 = (pathParts dest).1)
    (ext : List (List Char)) (h2 : (pathParts p).2 = (pathParts dest).2 ++ ext) :
    withinB dest p = true := by
  unfold withinB
  refine decide_eq_true ⟨h1.symm, ?_⟩
  rw [h2, List.isPrefixOf_iff_prefix]
  exact List.prefix_append _ _

theorem joinParts_append_single (qs : List (List Char)) (q : List Char)
    (h : qs ≠ []) : joinParts (qs ++ [q]) = joinParts qs ++ '/' :: q := by
  induction qs with
  | nil => exact absurd rfl h
  | cons r rs ih =>
    cases hrs : rs with
    | nil => subst hrs; rfl
    | cons t ts =>
      rw [← hrs, List.cons_append, joinParts_cons r (rs ++ [q]) (by simp [hrs]),
        joinParts_cons r rs (by simp [hrs]), ih (by simp [hrs]),
        List.append_assoc]
      rfl

theorem renderChars_of_ne_nil (dr : Bool) {ps : List (List Char)} (h : ps ≠ []) :
    renderChars dr ps = (if dr then ['/'] else []) ++ joinParts ps := by
  unfold renderChars
  rw [if_neg h]

theorem dirChars_append_good (a q : List Char) (hq : '/' ∉ q) :
    dirChars (a ++ q) = dirChars a := by
  unfold dirChars
  rw [List.reverse_append, List.dropWhile_append]
  rw [show q.reverse.dropWhile (fun c => ¬ c = '/') = [] from
    List.dropWhile_eq_nil_iff.mpr fun c hc => by
      refine decide_eq_true ?_
      intro he
      exact hq (he ▸ List.mem_reverse.mp hc)]
  simp

theorem dirChars_append_sep (a : List Char) :
    dirChars (a ++ ['/']) = a ++ ['/'] := by
  unfold dirChars
  rw [List.reverse_append]
  rw [show (['/'] : List Char).reverse = ['/'] from rfl, List.singleton_append]
  rw [show List.dropWhile (fun c => ¬ c = '/') ('/' :: a.reverse) =
    '/' :: a.reverse from List.dropWhile_cons_of_neg (by simp)]
  simp

theorem cleanParts_render {dr : Bool} {qs : List (List Char)}
    (hn : NormParts dr qs) :
    cleanParts dr (splitOnCh '/' (renderChars dr qs)) = qs := by
  have h := pathParts_render hn
  unfold pathParts at h
  rw [show (⟨renderChars dr qs⟩ : String).data = renderChars dr qs from rfl,
    isRootedCh_render hn] at h
  exact ((Prod.mk.injEq _ _ _ _).mp h).2

theorem pathParts_render_slash {dr : Bool} {qs : List (List Char)}
    (hn : NormParts dr qs) :
    pathParts ⟨renderChars dr qs ++ ['/']⟩ = (dr, qs) := by
  unfold pathParts
  rw [show (⟨renderChars dr qs ++ ['/']⟩ : String).data =
    renderChars dr qs ++ ['/'] from rfl]
  rw [isRootedCh_append _ _ (renderChars_ne_nil hn), isRootedCh_render hn]
  refine Prod.ext rfl ?_
  show cleanParts dr (splitOnCh '/' (renderChars dr qs ++ '/' :: [])) = qs
  rw [splitOnCh_append]
  unfold cleanParts
  rw [List.foldl_append]
  have hcp : (splitOnCh '/' (renderChars dr qs)).foldl (cleanStep dr) [] = qs :=
    cleanParts_render hn
  rw [hcp]
  show (splitOnCh '/' []).foldl (cleanStep dr) qs = qs
  rw [show splitOnCh '/' ([] : List Char) = [[]] from rfl, List.foldl_cons,
    List.foldl_nil]
  unfold cleanStep
  rw [if_pos (Or.inl rfl)]

theorem normParts_dropLast {dr : Bool} {ps : List (List Char)}
    (hn : NormParts dr ps) : NormParts dr ps.dropLast := by
  rw [List.dropLast_eq_take]
  exact normParts_take hn _

theorem pathParts_goDir {dr : Bool} {ps : List (List Char)}
    (hn : NormParts dr ps) :
    pathParts (goDir ⟨renderChars dr ps⟩) = (dr, ps.dropLast) := by
  rcases List.eq_nil_or_concat ps with hps | ⟨qs, q, rfl⟩
  · subst hps
    cases dr with
    | true => rfl
    | false => rfl
  · rw [List.concat_eq_append] at hn ⊢
    have hqgood := normParts_mem hn q (by simp)
    by_cases hqs : qs = []
    · subst hqs
      rw [List.nil_append]
      cases dr with
      | true =>
        rw [renderChars_cons_true]
        unfold goDir
        rw [show (⟨'/' :: joinParts [q]⟩ : String).data =
          ['/'] ++ q from rfl]
        rw [dirChars_append_good ['/'] _ hqgood.2]
        rw [show dirChars ['/'] = ['/'] from rfl]
        rw [pathParts_clean]
        rfl
      | false =>
        rw [renderChars_cons_false]
        unfold goDir
        rw [show (⟨joinParts [q]⟩ : String).data = [] ++ q from rfl]
        rw [dirChars_append_good [] _ hqgood.2]
        rw [show dirChars [] = [] from rfl]
        rw [pathParts_clean]
        rfl
    · rw [renderChars_of_ne_nil dr (by simp)]
      rw [joinParts_append_single _ _ hqs]
      unfold goDir
      rw [show (⟨(if dr then ['/'] else []) ++
          (joinParts qs ++ '/' :: q)⟩ : String).data =
        (((if dr then ['/'] else []) ++ joinParts qs) ++ ['/']) ++ q from by
          simp]
      rw [dirChars_append_good _ _ hqgood.2, dirChars_append_sep]
      rw [pathParts_clean]
      rw [show ((if dr then ['/'] else []) ++ joinParts qs) =
        renderChars dr qs from (renderChars_of_ne_nil dr hqs).symm]
      rw [List.dropLast_concat]
      have hqsn : NormParts dr qs := by
        have h2 := normParts_dropLast hn
        rwa [List.dropLast_concat] at h2
      exact pathParts_render_slash hqsn

theorem goJoin_eq_clean (a b : String) (hb : b ≠ "") :
    ∃ y, goJoin a b = clean y := by
  unfold goJoin
  by_cases ha : a = ""
  · rw [if_pos ha, if_neg hb]
    exact ⟨b, rfl⟩
  · rw [if_neg ha, if_neg hb]
    exact ⟨_, rfl⟩

theorem clean_data_render (y : String) :
    (clean y).data =
      renderChars (pathParts (clean y)).1 (pathParts (clean y)).2 := by
  by_cases hd : y.data = []
  · rw [show clean y = ⟨['.']⟩ from by
      unfold clean cleanChars
      rw [if_pos hd]]
    rfl
  · rw [pathParts_clean, clean_data y hd]

theorem find?_filter_ne (fs : Fs) (p q : String) (h : p ≠ q) :
    ((fs.filter fun kv => !decide (kv.1 = q)).find? fun kv => decide (kv.1 = p)) =
      fs.find? fun kv => decide (kv.1 = p) := by
  induction fs with
  | nil => rfl
  | cons kv fs' ih =>
    by_cases hk : kv.1 = q
    · rw [List.filter_cons_of_neg (by simp [hk]),
        List.find?_cons_of_neg _ (by simp [hk, h.symm]), ih]
    · rw [List.filter_cons_of_pos (by simp [hk])]
      by_cases hp : kv.1 = p
      · rw [List.find?_cons_of_pos _ (by simp [hp]),
          List.find?_cons_of_pos _ (by simp [hp])]
      · rw [List.find?_cons_of_neg _ (by simp [hp]),
          List.find?_cons_of_neg _ (by simp [hp]), ih]

theorem lookupFs_insert_ne (q : String) (n : FsNode) (fs : Fs) (p : String)
    (h : p ≠ q) : lookupFs (insertFs q n fs) p = lookupFs fs p := by
  unfold lookupFs insertFs
  rw [List.find?_cons_of_neg _ (by simpa using Ne.symm h),
    find?_filter_ne fs p q h]

theorem mem_insertFs {pr : String × FsNode} {q : String} {n : FsNode} {fs : Fs}
    (h : pr ∈ insertFs q n fs) : pr = (q, n) ∨ pr ∈ fs := by
  unfold insertFs at h
  rcases List.mem_cons.mp h with h' | h'
  · exact Or.inl h'
  · exact Or.inr (List.mem_of_mem_filter h')

theorem ancClosed_insertFs {dest : String} {fs : Fs} (q : String) (n : FsNode)
    (hanc : AncClosed dest fs)
    (h : n = FsNode.dir ∨ ¬ lookupFs fs q = some FsNode.dir) :
    AncClosed dest (insertFs q n fs) := by
  intro a ha
  by_cases haq : a = q
  · subst haq
    rw [lookupFs_insert_self]
    rcases h with h | h
    · rw [h]
    · exact absurd (hanc a ha) h
  · rw [lookupFs_insert_ne q n fs a haq]
    exact hanc a ha

theorem mkdirSteps_cons (q : String) (qs : List String) (fs : Fs) :
    mkdirSteps (q :: qs) fs =
      match lookupFs fs q with
      | some FsNode.dir => mkdirSteps qs fs
      | some _ => (fs, some ("mkdir " ++ q ++ ": not a directory"))
      | none => mkdirSteps qs (insertFs q FsNode.dir fs) := rfl

theorem mkdirSteps_ancClosed {dest : String} (qs : List String) (fs : Fs)
    (hanc : AncClosed dest fs) : AncClosed dest (mkdirSteps qs fs).1 := by
  induction qs generalizing fs with
  | nil => exact hanc
  | cons q qs ih =>
    rw [mkdirSteps_cons]
    cases hlu : lookupFs fs q with
    | none => exact ih _ (ancClosed_insertFs q _ hanc (Or.inl rfl))
    | some nd =>
      cases nd with
      | dir => exact ih _ hanc
      | file w => exact hanc
      | cache c => exact hanc

theorem mkdirSteps_mem {dest : String} (qs : List String) (fs : Fs)
    (hex : ∀ q ∈ qs, lookupFs fs q = some FsNode.dir ∨ withinB dest q = true) :
    ∀ pr ∈ (mkdirSteps qs fs).1,
      pr ∈ fs ∨ (pr.2 = FsNode.dir ∧ withinB dest pr.1 = true) := by
  induction qs generalizing fs with
  | nil => exact fun pr hpr => Or.inl hpr
  | cons q qs ih =>
    cases hlu : lookupFs fs q with
    | none =>
      rw [mkdirSteps_cons, hlu]
      have hw : withinB dest q = true := by
        rcases hex q (List.mem_cons_self q qs) with h | h
        · rw [hlu] at h
          exact absurd h (by simp)
        · exact h
      have hex' : ∀ q' ∈ qs, lookupFs (insertFs q FsNode.dir fs) q' =
          some FsNode.dir ∨ withinB dest q' = true := by
        intro q' hq'
        by_cases hqq : q' = q
        · subst hqq
          exact Or.inl (lookupFs_insert_self _ _ _)
        · rw [lookupFs_insert_ne q _ fs q' hqq]
          exact hex q' (List.mem_cons_of_mem q hq')
      intro pr hpr
      rcases ih _ hex' pr hpr with h | h
      · rcases mem_insertFs h with h' | h'
        · subst h'
          exact Or.inr ⟨rfl, hw⟩
        · exact Or.inl h'
      · exact Or.inr h
    | some nd =>
      cases nd with
      | dir =>
        rw [mkdirSteps_cons, hlu]
        exact ih _ (fun q' hq' => hex q' (List.mem_cons_of_mem q hq'))
      | file w =>
        rw [mkdirSteps_cons, hlu]
        exact fun pr hpr => Or.inl hpr
      | cache c =>
        rw [mkdirSteps_cons, hlu]
        exact fun pr hpr => Or.inl hpr

theorem mem_prefixPaths {rooted : Bool} {ps : List (List Char)} {q : String}
    (h : q ∈ prefixPaths rooted ps) :
    ∃ i, i < ps.length ∧ q = ⟨renderChars rooted (ps.take (i + 1))⟩ := by
  unfold prefixPaths at h
  obtain ⟨i, hi, hq⟩ := List.mem_map.mp h
  exact ⟨i, List.mem_range.mp hi, hq.symm⟩

theorem prefixPaths_mem (rooted : Bool) (ps : List (List Char)) (i : Nat)
    (hi : i < ps.length) :
    (⟨renderChars rooted (ps.take (i + 1))⟩ : String) ∈ prefixPaths rooted ps := by
  unfold prefixPaths
  exact List.mem_map.mpr ⟨i, List.mem_range.mpr hi, rfl⟩

theorem mkdir_hex (destDir : String) (fs : Fs) (hanc : AncClosed destDir fs)
    (ext : List (List Char)) (hgood : ∀ q ∈ ext, goodPart q) :
    ∀ q ∈ prefixPaths (pathParts destDir).1 ((pathParts destDir).2 ++ ext),
      lookupFs fs q = some FsNode.dir ∨ withinB destDir q = true := by
  intro q hq
  obtain ⟨i, hi, rfl⟩ := mem_prefixPaths hq
  by_cases hlen : i + 1 ≤ (pathParts destDir).2.length
  · left
    rw [List.take_append_of_le_length hlen]
    exact hanc _ (prefixPaths_mem _ _ i (by omega))
  · right
    have hlen' : (pathParts destDir).2.length ≤ i + 1 := by omega
    rw [List.take_append_eq_append_take, List.take_of_length_le hlen']
    have hpp : pathParts ⟨renderChars (pathParts destDir).1
        ((pathParts destDir).2 ++
          ext.take (i + 1 - (pathParts destDir).2.length))⟩ =
        ((pathParts destDir).1, (pathParts destDir).2 ++
          ext.take (i + 1 - (pathParts destDir).2.length)) :=
      pathParts_render (normParts_append_good (pathParts_norm destDir)
        (fun p hp => hgood p (List.take_subset _ _ hp)))
    exact withinB_of_parts (by rw [hpp]) _ (by rw [hpp])

theorem mkdir_hex_dropLast (destDir : String) (fs : Fs)
    (hanc : AncClosed destDir fs) :
    ∀ q ∈ prefixPaths (pathParts destDir).1 (pathParts destDir).2.dropLast,
      lookupFs fs q = some FsNode.dir ∨ withinB destDir q = true := by
  intro q hq
  obtain ⟨i, hi, rfl⟩ := mem_prefixPaths hq
  rw [List.length_dropLast] at hi
  left
  rw [List.dropLast_eq_take, List.take_take,
    show min (i + 1) ((pathParts destDir).2.length - 1) = i + 1 from by omega]
  exact hanc _ (prefixPaths_mem _ _ i (by omega))

theorem fsDisj_weaken (destDir : String) (fs : Fs) (pr : String × FsNode)
    (h : pr ∈ fs ∨ (pr.2 = FsNode.dir ∧ withinB destDir pr.1 = true)) :
    pr ∈ fs ∨ (withinB destDir pr.1 = true ∧
      ∀ n, pr.2 = FsNode.file n → n ≤ maxExtractFileSize + 1) := by
  rcases h with h | ⟨hd, hw⟩
  · exact Or.inl h
  · refine Or.inr ⟨hw, fun n hn => ?_⟩
    rw [hd] at hn
    exact absurd hn (by simp)

theorem writeFileNode_inv (destDir target : String) (w : Nat) (fs1 : Fs)
    (hanc1 : AncClosed destDir fs1) (hwt : withinB destDir target = true)
    (hwle : w ≤ maxExtractFileSize + 1) :
    ∀ fs2, writeFileNode target w fs1 = Except.ok fs2 →
      AncClosed destDir fs2 ∧
      ∀ pr ∈ fs2, pr ∈ fs1 ∨ (withinB destDir pr.1 = true ∧
        ∀ n, pr.2 = FsNode.file n → n ≤ maxExtractFileSize + 1) := by
  intro fs2 hok
  have key : ¬ lookupFs fs1 target = some FsNode.dir →
      fs2 = insertFs target (FsNode.file w) fs1 →
      AncClosed destDir fs2 ∧
      ∀ pr ∈ fs2, pr ∈ fs1 ∨ (withinB destDir pr.1 = true ∧
        ∀ n, pr.2 = FsNode.file n → n ≤ maxExtractFileSize + 1) := by
    intro hnd hfs2
    subst hfs2
    constructor
    · intro a ha
      by_cases hat : a = target
      · subst hat
        exact absurd (hanc1 a ha) hnd
      · rw [lookupFs_insert_ne _ _ _ _ hat]
        exact hanc1 a ha
    · intro pr hpr
      rcases mem_insertFs hpr with h | h
      · subst h
        refine Or.inr ⟨hwt, fun n hn => ?_⟩
        have hwn : FsNode.file w = FsNode.file n := hn
        rw [FsNode.file.injEq] at hwn
        omega
      · exact Or.inl h
  unfold writeFileNode at hok
  cases hlu : lookupFs fs1 target with
  | none =>
    rw [hlu] at hok
    exact key (by rw [hlu]; simp) (Except.ok.inj hok).symm
  | some nd =>
    cases nd with
    | dir =>
      rw [hlu] at hok
      exact absurd hok (by simp)
    | file w0 =>
      rw [hlu] at hok
      exact key (by rw [hlu]; simp) (Except.ok.inj hok).symm
    | cache c =>
      rw [hlu] at hok
      exact key (by rw [hlu]; simp) (Except.ok.inj hok).symm

theorem extractEntry_inv (destDir cleanDest : String) (fs : Fs) (e : TarEntry)
    (hanc : AncClosed destDir fs) :
    AncClosed destDir (extractEntry destDir cleanDest fs e).1 ∧
    ∀ pr ∈ (extractEntry destDir cleanDest fs e).1,
      pr ∈ fs ∨ (withinB destDir pr.1 = true ∧
        ∀ n, pr.2 = FsNode.file n → n ≤ maxExtractFileSize + 1) := by
  simp only [extractEntry]
  split
  next h1 => exact ⟨hanc, fun pr hpr => Or.inl hpr⟩
  next h1 =>
    push_neg at h1
    have hpre : strHasPre (clean e.name) ".." = false := Bool.eq_false_iff.mpr h1.1
    have habs0 : goIsAbs (clean e.name) = false := Bool.eq_false_iff.mpr h1.2
    have habs : (pathParts e.name).1 = false := by
      rw [← goIsAbs_clean]
      exact habs0
    have hgood := good_of_not_pre e.name habs hpre
    have hPT := pathParts_goJoin destDir e.name habs hgood
    have hwithin : withinB destDir (goJoin destDir (clean e.name)) = true :=
      withinB_of_parts (by rw [hPT]) _ (by rw [hPT])
    split
    next h2 => exact ⟨hanc, fun pr hpr => Or.inl hpr⟩
    next h2 =>
      have hmT : mkdirAll (goJoin destDir (clean e.name)) fs =
          mkdirSteps (prefixPaths (pathParts destDir).1
            ((pathParts destDir).2 ++ (pathParts e.name).2)) fs := by
        unfold mkdirAll
        rw [hPT]
      have hancT : AncClosed destDir
          (mkdirAll (goJoin destDir (clean e.name)) fs).1 := by
        rw [hmT]
        exact mkdirSteps_ancClosed _ _ hanc
      have hmemT : ∀ pr ∈ (mkdirAll (goJoin destDir (clean e.name)) fs).1,
          pr ∈ fs ∨ (withinB destDir pr.1 = true ∧
            ∀ n, pr.2 = FsNode.file n → n ≤ maxExtractFileSize + 1) := by
        rw [hmT]
        exact fun pr hpr => fsDisj_weaken destDir fs pr
          (mkdirSteps_mem _ _ (mkdir_hex destDir fs hanc _ hgood) pr hpr)
      obtain ⟨y, hy⟩ := goJoin_eq_clean destDir (clean e.name) (clean_ne_empty e.name)
      have hdata : (goJoin destDir (clean e.name)).data =
          renderChars (pathParts destDir).1
            ((pathParts destDir).2 ++ (pathParts e.name).2) := by
        rw [hy, clean_data_render y, ← hy, hPT]
      have hstr : goJoin destDir (clean e.name) =
          ⟨renderChars (pathParts destDir).1
            ((pathParts destDir).2 ++ (pathParts e.name).2)⟩ :=
        congrArg String.mk hdata
      have hPD : pathParts (goDir (goJoin destDir (clean e.name))) =
          ((pathParts destDir).1,
            ((pathParts destDir).2 ++ (pathParts e.name).2).dropLast) := by
        rw [hstr]
        exact pathParts_goDir (normParts_append_good (pathParts_norm destDir) hgood)
      have hmD : mkdirAll (goDir (goJoin destDir (clean e.name))) fs =
          mkdirSteps (prefixPaths (pathParts destDir).1
            (((pathParts destDir).2 ++ (pathParts e.name).2).dropLast)) fs := by
        unfold mkdirAll
        rw [hPD]
      have hex2 : ∀ q ∈ prefixPaths (pathParts destDir).1
          (((pathParts destDir).2 ++ (pathParts e.name).2).dropLast),
          lookupFs fs q = some FsNode.dir ∨ withinB destDir q = true := by
        cases hnq : (pathParts e.name).2 with
        | nil =>
          rw [List.append_nil]
          exact mkdir_hex_dropLast destDir fs hanc
        | cons a as =>
          rw [dropLast_append_right _ _ (by simp)]
          refine mkdir_hex destDir fs hanc _ (fun p hp => hgood p ?_)
          rw [hnq]
          exact (List.dropLast_sublist (a :: as)).mem hp
      have hancD : AncClosed destDir
          (mkdirAll (goDir (goJoin destDir (clean e.name))) fs).1 := by
        rw [hmD]
        exact mkdirSteps_ancClosed _ _ hanc
      have hmemD : ∀ pr ∈ (mkdirAll (goDir (goJoin destDir (clean e.name))) fs).1,
          pr ∈ fs ∨ (withinB destDir pr.1 = true ∧
            ∀ n, pr.2 = FsNode.file n → n ≤ maxExtractFileSize + 1) := by
        rw [hmD]
        exact fun pr hpr => fsDisj_weaken destDir fs pr
          (mkdirSteps_mem _ _ hex2 pr hpr)
      split
      · split
        next err heq => exact ⟨hancT, hmemT⟩
        next heq => exact ⟨hancT, hmemT⟩
      · split
        next err heq => exact ⟨hancD, hmemD⟩
        next heq =>
          split
          next err heq2 => exact ⟨hancD, hmemD⟩
          next fs2 heq2 =>
            have hw := writeFileNode_inv destDir (goJoin destDir (clean e.name))
              (min e.size (maxExtractFileSize + 1))
              (mkdirAll (goDir (goJoin destDir (clean e.name))) fs).1
              hancD hwithin (min_le_right _ _) fs2 heq2
            have hmem2 : ∀ pr ∈ fs2,
                pr ∈ fs ∨ (withinB destDir pr.1 = true ∧
                  ∀ n, pr.2 = FsNode.file n → n ≤ maxExtractFileSize + 1) := by
              intro pr hpr
              rcases hw.2 pr hpr with h | h
              · exact hmemD pr h
              · exact Or.inr h
            split
            · exact ⟨hw.1, hmem2⟩
            · exact ⟨hw.1, hmem2⟩
      · exact ⟨hanc, fun pr hpr => Or.inl hpr⟩

theorem extractEntry_bad (destDir cleanDest : String) (fs : Fs) (e : TarEntry)
    (hb : badEntry destDir e) :
    (extractEntry destDir cleanDest fs e).2 ≠ none := by
  simp only [extractEntry]
  split
  next h1 => simp
  next h1 =>
    push_neg at h1
    have hpre : strHasPre (clean e.name) ".." = false := Bool.eq_false_iff.mpr h1.1
    have habs0 : goIsAbs (clean e.name) = false := Bool.eq_false_iff.mpr h1.2
    have habs : (pathParts e.name).1 = false := by
      rw [← goIsAbs_clean]
      exact habs0
    have hgood := good_of_not_pre e.name habs hpre
    have hPT := pathParts_goJoin destDir e.name habs hgood
    have hwithin : withinB destDir (goJoin destDir (clean e.name)) = true :=
      withinB_of_parts (by rw [hPT]) _ (by rw [hPT])
    exfalso
    unfold badEntry at hb
    rcases hb with hb | hb | hb
    · rw [habs0] at hb
      exact Bool.noConfusion hb
    · rw [hpre] at hb
      exact Bool.noConfusion hb
    · rw [hwithin] at hb
      exact Bool.noConfusion hb

theorem extractEntry_oversize (destDir cleanDest : String) (fs : Fs) (e : TarEntry)
    (hreg : e.typeflag = TarType.reg) (hsz : maxExtractFileSize < e.size) :
    (extractEntry destDir cleanDest fs e).2 ≠ none := by
  simp only [extractEntry]
  split
  next h1 => simp
  next h1 =>
    split
    next h2 => simp
    next h2 =>
      split
      next htf => simp [hreg] at htf
      next htf =>
        split
        next err heq => simp
        next heq =>
          split
          next err heq2 => simp
          next fs2 heq2 =>
            split
            next hgt => simp
            next hgt =>
              exfalso
              have hmin : min e.size (maxExtractFileSize + 1) =
                  maxExtractFileSize + 1 := Nat.min_eq_right (by omega)
              exact hgt (by rw [hmin]; omega)
      next htf => simp [hreg] at htf

theorem extractTarGz_eq_fold (entries : List TarEntry) (destDir : String)
    (fs : Fs) :
    extractTarGz entries destDir fs =
      entries.foldl (extractStep destDir (clean destDir)) (fs, none) := rfl

theorem extractStep_some (destDir cleanDest : String) (fs0 : Fs) (err : String)
    (e : TarEntry) :
    extractStep destDir cleanDest (fs0, some err) e = (fs0, some err) := rfl

theorem extractStep_none (destDir cleanDest : String) (fs0 : Fs) (e : TarEntry) :
    extractStep destDir cleanDest (fs0, none) e =
      extractEntry destDir cleanDest fs0 e := rfl

theorem extract_fold_keep (destDir cleanDest : String) (es : List TarEntry) :
    ∀ acc : Fs × Option String, acc.2 ≠ none →
      es.foldl (extractStep destDir cleanDest) acc = acc := by
  induction es with
  | nil => exact fun acc _ => rfl
  | cons e es ih =>
    rintro ⟨fs0, st0⟩ h
    cases st0 with
    | none => exact absurd rfl h
    | some err =>
      rw [List.foldl_cons, extractStep_some]
      exact ih (fs0, some err) (by simp)

theorem extract_fold_inv (destDir cleanDest : String) (es : List TarEntry) :
    ∀ acc : Fs × Option String, AncClosed destDir acc.1 →
      AncClosed destDir
        ((es.foldl (extractStep destDir cleanDest) acc)).1 ∧
      ∀ pr ∈ (es.foldl (extractStep destDir cleanDest) acc).1,
        pr ∈ acc.1 ∨ (withinB destDir pr.1 = true ∧
          ∀ n, pr.2 = FsNode.file n → n ≤ maxExtractFileSize + 1) := by
  induction es with
  | nil => exact fun acc hanc => ⟨hanc, fun pr hpr => Or.inl hpr⟩
  | cons e es ih =>
    rintro ⟨fs0, st0⟩ hanc
    rw [List.foldl_cons]
    cases st0 with
    | some err =>
      rw [extractStep_some]
      exact ih (fs0, some err) hanc
    | none =>
      rw [extractStep_none]
      have hE := extractEntry_inv destDir cleanDest fs0 e hanc
      have hrec := ih (extractEntry destDir cleanDest fs0 e) hE.1
      refine ⟨hrec.1, fun pr hpr => ?_⟩
      rcases hrec.2 pr hpr with h | h
      · exact hE.2 pr h
      · exact Or.inr h

theorem extract_fold_err (destDir cleanDest : String) (Q : TarEntry → Prop)
    (hQ : ∀ fs0 e, Q e → (extractEntry destDir cleanDest fs0 e).2 ≠ none)
    (es : List TarEntry) :
    ∀ acc : Fs × Option String, (∃ e ∈ es, Q e) →
      (es.foldl (extractStep destDir cleanDest) acc).2 ≠ none := by
  induction es with
  | nil =>
    rintro acc ⟨e, he, _⟩
    exact absurd he (List.not_mem_nil e)
  | cons e es ih =>
    rintro ⟨fs0, st0⟩ ⟨e', he', hQ'⟩
    rw [List.foldl_cons]
    cases st0 with
    | some err =>
      rw [extractStep_some, extract_fold_keep destDir cleanDest es _ (by simp)]
      simp
    | none =>
      rw [extractStep_none]
      rcases List.mem_cons.mp he' with rfl | hes
      · cases hst : (extractEntry destDir cleanDest fs0 e').2 with
        | none => exact absurd hst (hQ fs0 e' hQ')
        | some err2 =>
          have hEeta : extractEntry destDir cleanDest fs0 e' =
              ((extractEntry destDir cleanDest fs0 e').1, some err2) := by
            rw [← hst]
          rw [hEeta, extract_fold_keep destDir cleanDest es _ (by simp)]
          simp
      · exact ih (extractEntry destDir cleanDest fs0 e) ⟨e', hes, hQ'⟩

/-- C1: if any entry of the stream is malicious — after cleaning its path is
absolute or begins with "..", or its joined path escapes the destination —
then `extractTarGz` returns an error, and every file-system binding it has
created (anything not already present) lies within the destination
directory.  The destination's own directory chain is assumed to exist, as
`pull` guarantees by creating it first. -/
theorem c1_extractTarGz_blocks_traversal (entries : List TarEntry)
    (destDir : String) (fs : Fs) (hanc : AncClosed destDir fs)
    (hbad : ∃ e ∈ entries, badEntry destDir e) :
    (extractTarGz entries destDir fs).2 ≠ none ∧
    ∀ pr ∈ (extractTarGz entries destDir fs).1,
      pr ∈ fs ∨ withinB destDir pr.1 = true := by
  rw [extractTarGz_eq_fold]
  constructor
  · exact extract_fold_err destDir (clean destDir) (badEntry destDir)
      (fun fs' e hb => extractEntry_bad destDir (clean destDir) fs' e hb)
      entries (fs, none) hbad
  · intro pr hpr
    exact ((extract_fold_inv destDir (clean destDir) entries (fs, none) hanc).2
      pr hpr).imp id And.left

theorem c1_extractTarGz_blocks_traversal_witness :
    AncClosed "/d" [("/d", FsNode.dir)] ∧
    (∃ e ∈ [(⟨"../escape.txt", TarType.reg, 3⟩ : TarEntry)], badEntry "/d" e) ∧
    ((extractTarGz [⟨"../escape.txt", TarType.reg, 3⟩] "/d"
        [("/d", FsNode.dir)]).2 ≠ none ∧
      ∀ pr ∈ (extractTarGz [⟨"../escape.txt", TarType.reg, 3⟩] "/d"
        [("/d", FsNode.dir)]).1,
        pr ∈ [("/d", FsNode.dir)] ∨ withinB "/d" pr.1 = true) :=
  ⟨by unfold AncClosed; decide, by unfold badEntry; decide,
    c1_extractTarGz_blocks_traversal _ _ _ (by unfold AncClosed; decide)
      (by unfold badEntry; decide)⟩

/-- C3 (amended): every regular-file entry is copied through the
`io.LimitReader`-style cap, so every file node `extractTarGz` creates
records at most `maxExtractFileSize + 1` bytes, and a stream containing a
regular entry whose content exceeds `maxExtractFileSize` makes the whole
extraction return an error.  (The truncated file is not removed — see the
counterexample.) -/
theorem c3_extract_size_cap (entries : List TarEntry) (destDir : String)
    (fs : Fs) (hanc : AncClosed destDir fs) :
    (∀ pr ∈ (extractTarGz entries destDir fs).1, pr ∈ fs ∨
      ∀ n, pr.2 = FsNode.file n → n ≤ maxExtractFileSize + 1) ∧
    ∀ e ∈ entries, e.typeflag = TarType.reg → maxExtractFileSize < e.size →
      (extractTarGz entries destDir fs).2 ≠ none := by
  rw [extractTarGz_eq_fold]
  constructor
  · intro pr hpr
    exact ((extract_fold_inv destDir (clean destDir) entries (fs, none) hanc).2
      pr hpr).imp id And.right
  · intro e he hreg hsz
    exact extract_fold_err destDir (clean destDir)
      (fun e' => e'.typeflag = TarType.reg ∧ maxExtractFileSize < e'.size)
      (fun fs' e' h => extractEntry_oversize destDir (clean destDir) fs' e' h.1 h.2)
      entries (fs, none) ⟨e, he, hreg, hsz⟩

theorem c3_extract_size_cap_witness :
    AncClosed "/d" [("/d", FsNode.dir)] ∧
    ((∀ pr ∈ (extractTarGz [⟨"a.txt", TarType.reg, 5⟩] "/d"
        [("/d", FsNode.dir)]).1, pr ∈ [("/d", FsNode.dir)] ∨
        ∀ n, pr.2 = FsNode.file n → n ≤ maxExtractFileSize + 1) ∧
      ∀ e ∈ [(⟨"a.txt", TarType.reg, 5⟩ : TarEntry)],
        e.typeflag = TarType.reg → maxExtractFileSize < e.size →
        (extractTarGz [⟨"a.txt", TarType.reg, 5⟩] "/d"
          [("/d", FsNode.dir)]).2 ≠ none) :=
  ⟨by unfold AncClosed; decide,
    c3_extract_size_cap _ _ _ (by unfold AncClosed; decide)⟩

/-- C3 (counterexample to "without leaving a truncated file lingering"): a
single oversized regular entry makes the extraction fail, yet the
`maxExtractFileSize + 1`-byte truncated file it wrote stays in the
destination — nothing along the error path removes it. -/
theorem c3_truncated_file_lingers :
    (extractTarGz [⟨"huge.bin", TarType.reg, maxExtractFileSize + 1⟩] "/d"
      [("/d", FsNode.dir)]).2 ≠ none ∧
    lookupFs (extractTarGz [⟨"huge.bin", TarType.reg, maxExtractFileSize + 1⟩]
      "/d" [("/d", FsNode.dir)]).1 "/d/huge.bin" =
      some (FsNode.file (maxExtractFileSize + 1)) := by
  constructor
  · decide
  · decide

theorem mkdirSteps_mem_plain (qs : List String) (fs : Fs) :
    ∀ pr ∈ (mkdirSteps qs fs).1,
      pr ∈ fs ∨ (pr.2 = FsNode.dir ∧ pr.1 ∈ qs) := by
  induction qs generalizing fs with
  | nil => exact fun pr hpr => Or.inl hpr
  | cons q qs ih =>
    rw [mkdirSteps_cons]
    cases hlu : lookupFs fs q with
    | none =>
      intro pr hpr
      rcases ih _ pr hpr with h | h
      · rcases mem_insertFs h with h' | h'
        · subst h'
          exact Or.inr ⟨rfl, List.mem_cons_self _ _⟩
        · exact Or.inl h'
      · exact Or.inr ⟨h.1, List.mem_cons_of_mem q h.2⟩
    | some nd =>
      cases nd with
      | dir =>
        intro pr hpr
        rcases ih _ pr hpr with h | h
        · exact Or.inl h
        · exact Or.inr ⟨h.1, List.mem_cons_of_mem q h.2⟩
      | file w => exact fun pr hpr => Or.inl hpr
      | cache c => exact fun pr hpr => Or.inl hpr

theorem strictlyWithinB_of_not_within {dir p : String}
    (h : withinB dir p = false) : strictlyWithinB dir p = false := by
  unfold strictlyWithinB
  refine decide_eq_false ?_
  rintro ⟨hw, _⟩
  rw [h] at hw
  exact Bool.noConfusion hw

theorem strictlyWithinB_take_false (dir : String) (i : Nat) :
    strictlyWithinB dir
      ⟨renderChars (pathParts dir).1 ((pathParts dir).2.take (i + 1))⟩ =
      false := by
  have hpp : pathParts ⟨renderChars (pathParts dir).1
      ((pathParts dir).2.take (i + 1))⟩ =
      ((pathParts dir).1, (pathParts dir).2.take (i + 1)) :=
    pathParts_render (normParts_take (pathParts_norm dir) _)
  unfold strictlyWithinB
  refine decide_eq_false ?_
  rintro ⟨hw, hne⟩
  unfold withinB at hw
  obtain ⟨h1, h2⟩ := of_decide_eq_true hw
  rw [hpp] at h2
  replace h2 : (pathParts dir).2.isPrefixOf
      ((pathParts dir).2.take (i + 1)) = true := h2
  rw [List.isPrefixOf_iff_prefix] at h2
  have hlen := h2.length_le
  rw [List.length_take] at hlen
  have htk : (pathParts dir).2.take (i + 1) = (pathParts dir).2 :=
    List.take_of_length_le (by omega)
  apply hne
  rw [hpp]
  exact htk.symm

theorem cleanAndCreate_wipes (dir : String) (fs : Fs) :
    ∀ pr ∈ (cleanAndCreate dir fs).1, strictlyWithinB dir pr.1 = false := by
  intro pr hpr
  unfold cleanAndCreate mkdirAll at hpr
  rcases mkdirSteps_mem_plain _ _ pr hpr with h | h
  · have hf := List.of_mem_filter h
    exact strictlyWithinB_of_not_within (by simpa using hf)
  · obtain ⟨i, hi, hq⟩ := mem_prefixPaths h.2
    rw [hq]
    exact strictlyWithinB_take_false dir i

/-- C10: with the manifest digest resolved, a cache hit returns the cached
result (`Cached = true`) and leaves the file system — in particular the
destination directory's contents — completely untouched; on a cache miss
the destination is first wiped and recreated (`cleanAndCreate` leaves no
binding strictly inside the destination), and a successful pull's final
state is exactly the cache record written over the extraction into that
wiped state, with `Cached = false`. -/
theorem c10_pull_cache_hit_and_wipe (o : PullOracle) (ref destDir : String)
    (now : Nat) (fs : Fs) (digest : String)
    (hres : o.resolveDigest = Except.ok digest) :
    (IsCached destDir digest fs = true →
      (pull o ref destDir now fs).1 = fs ∧
      ∃ r, (pull o ref destDir now fs).2 = Except.ok r ∧ r.Cached = true) ∧
    (IsCached destDir digest fs = false →
      (∀ pr ∈ (cleanAndCreate destDir fs).1,
        strictlyWithinB destDir pr.1 = false) ∧
      ∀ anns cfg entries, o.fetchAnnotations = Except.ok anns →
        o.fetchConfig = Except.ok cfg → o.fetchLayer = Except.ok entries →
        ∀ r, (pull o ref destDir now fs).2 = Except.ok r →
          r.Cached = false ∧
          (pull o ref destDir now fs).1 =
            WriteCacheEntry destDir ⟨digest, ref, 0, cfg, anns⟩ now
              (extractTarGz entries destDir
                (cleanAndCreate destDir fs).1).1) := by
  constructor
  · intro hc
    simp only [pull, hres]
    split
    next hcc =>
      split
      next entry hrc => exact ⟨rfl, _, rfl, rfl⟩
      next msg hrc => exact ⟨rfl, _, rfl, rfl⟩
    next hcc => exact absurd hc hcc
  · intro hc
    refine ⟨cleanAndCreate_wipes destDir fs, ?_⟩
    intro anns cfg entries hA hC hL r hr
    have hpull : pull o ref destDir now fs =
        (match (cleanAndCreate destDir fs).2 with
        | some e => ((cleanAndCreate destDir fs).1, Except.error e)
        | none =>
          match (extractTarGz entries destDir
              (cleanAndCreate destDir fs).1).2 with
          | some e => ((extractTarGz entries destDir
              (cleanAndCreate destDir fs).1).1,
              Except.error ("extracting content for " ++ ref ++ ": " ++ e))
          | none => (WriteCacheEntry destDir ⟨digest, ref, 0, cfg, anns⟩ now
              (extractTarGz entries destDir
                (cleanAndCreate destDir fs).1).1,
              Except.ok ⟨digest, ref, false, cfg, anns⟩)) := by
      simp only [pull, hres, hA, hC, hL]
      rw [if_neg (fun hcc => by rw [hc] at hcc; exact Bool.noConfusion hcc)]
    rw [hpull] at hr ⊢
    cases hcc2 : (cleanAndCreate destDir fs).2 with
    | some msg =>
      rw [hcc2] at hr
      simp at hr
    | none =>
      rw [hcc2] at hr
      cases hext : (extractTarGz entries destDir
          (cleanAndCreate destDir fs).1).2 with
      | some msg =>
        rw [hext] at hr
        simp at hr
      | none =>
        rw [hext] at hr
        have hr' : Except.ok (⟨digest, ref, false, cfg, anns⟩ : pullResult) =
            Except.ok r := hr
        have hrr := Except.ok.inj hr'
        subst hrr
        exact ⟨rfl, rfl⟩

theorem c10_pull_cache_hit_and_wipe_witness :
    (IsCached "/d" "sha256:aa" [] = true →
      (pull ⟨Except.ok "sha256:aa", Except.ok [], Except.ok "", Except.ok []⟩
        "reg.io/a" "/d" 7 []).1 = [] ∧
      ∃ r, (pull ⟨Except.ok "sha256:aa", Except.ok [], Except.ok "",
          Except.ok []⟩ "reg.io/a" "/d" 7 []).2 = Except.ok r ∧
        r.Cached = true) ∧
    (IsCached "/d" "sha256:aa" [] = false →
      (∀ pr ∈ (cleanAndCreate "/d" []).1,
        strictlyWithinB "/d" pr.1 = false) ∧
      ∀ anns cfg entries,
        (⟨Except.ok "sha256:aa", Except.ok [], Except.ok "",
          Except.ok []⟩ : PullOracle).fetchAnnotations = Except.ok anns →
        (⟨Except.ok "sha256:aa", Except.ok [], Except.ok "",
          Except.ok []⟩ : PullOracle).fetchConfig = Except.ok cfg →
        (⟨Except.ok "sha256:aa", Except.ok [], Except.ok "",
          Except.ok []⟩ : PullOracle).fetchLayer = Except.ok entries →
        ∀ r, (pull ⟨Except.ok "sha256:aa", Except.ok [], Except.ok "",
            Except.ok []⟩ "reg.io/a" "/d" 7 []).2 = Except.ok r →
          r.Cached = false ∧
          (pull ⟨Except.ok "sha256:aa", Except.ok [], Except.ok "",
            Except.ok []⟩ "reg.io/a" "/d" 7 []).1 =
            WriteCacheEntry "/d" ⟨"sha256:aa", "reg.io/a", 0, cfg, anns⟩ 7
              (extractTarGz entries "/d" (cleanAndCreate "/d" []).1).1) :=
  c10_pull_cache_hit_and_wipe
    ⟨Except.ok "sha256:aa", Except.ok [], Except.ok "", Except.ok []⟩
    "reg.io/a" "/d" 7 [] "sha256:aa" rfl

end KlausOci
